import Mathlib

/-!
Verification of the indicator-computation core of
`streamlit-lightweight-charts-v5` (`src/lightweight_charts_v5/indicators.py`).

The Python source is shallowly embedded: pandas columns become `List`s,
`NaN` cells become `none : Option ℚ` (or the explicit IEEE-value type
`FloatVal` where the float special values `inf`/`nan` are observable),
and each indicator's `calculate` / `get_series_configs` method becomes a
pure Lean function over those lists.  Prices and volumes are modelled as
rationals; the arithmetic performed by the source (sums, means, divisions)
is exact in ℚ, and the IEEE special-value behaviour of division by zero is
modelled explicitly by `FloatVal`.
-/

namespace LW

/-- Kind of pivot searched for by `_find_pivots` (`'high'` or `'low'`). -/
inductive PivotKind where
  | high
  | low
deriving DecidableEq

/-- Embedding of the pivot test in `AVWAPIndicator._find_pivots` /
`PivotHighIndicator._find_pivots` (indicators.py lines 598-618 and 966-980):
index `i` is a pivot-high iff `values[i] > values[i-j]` for `j` in
`range(1, left+1)` and `values[i] > values[i+j]` for `j` in
`range(1, right+1)`; pivot-low uses `<`.  Out-of-range reads cannot occur
for the indices the caller scans (see `findPivots`), so `getD` defaults are
never exercised. -/
def isPivotAt (vals : List ℚ) (left right : ℕ) (kind : PivotKind) (i : ℕ) : Bool :=
  match kind with
  | .high =>
      ((List.range left).all fun j => decide (vals.getD (i - (j + 1)) 0 < vals.getD i 0)) &&
      ((List.range right).all fun j => decide (vals.getD (i + (j + 1)) 0 < vals.getD i 0))
  | .low =>
      ((List.range left).all fun j => decide (vals.getD i 0 < vals.getD (i - (j + 1)) 0)) &&
      ((List.range right).all fun j => decide (vals.getD i 0 < vals.getD (i + (j + 1)) 0))

/-- Embedding of `_find_pivots` (indicators.py lines 598-618, duplicated at
966-980 for `PivotHighIndicator` with `kind = high` fixed): return `[]` when
`len(values) < left + right + 1`, otherwise scan
`for i in range(left, len(values) - right)` collecting indices that pass the
pivot test. -/
def findPivots (vals : List ℚ) (left right : ℕ) (kind : PivotKind) : List ℕ :=
  if vals.length < left + right + 1 then []
  else (List.range' left (vals.length - right - left)).filter (isPivotAt vals left right kind)

theorem findPivots_short {vals : List ℚ} {left right : ℕ} {kind : PivotKind}
    (h : vals.length < left + right + 1) : findPivots vals left right kind = [] := by
  simp [findPivots, h]

theorem findPivots_sorted (vals : List ℚ) (left right : ℕ) (kind : PivotKind) :
    (findPivots vals left right kind).Pairwise (· < ·) := by
  unfold findPivots
  split
  · simp
  · exact (List.pairwise_lt_range' left _ 1).filter _

theorem mem_findPivots {vals : List ℚ} {left right : ℕ} {kind : PivotKind} {p : ℕ} :
    p ∈ findPivots vals left right kind ↔
      left + right + 1 ≤ vals.length ∧ left ≤ p ∧ p + right < vals.length ∧
        isPivotAt vals left right kind p = true := by
  unfold findPivots
  split
  · next h =>
    simp only [List.not_mem_nil, false_iff]
    rintro ⟨hle, -, -, -⟩
    omega
  · next h =>
    rw [List.mem_filter, List.mem_range'_1]
    constructor
    · rintro ⟨⟨h1, h2⟩, h3⟩
      refine ⟨by omega, h1, by omega, h3⟩
    · rintro ⟨-, h1, h2, h3⟩
      exact ⟨⟨h1, by omega⟩, h3⟩

theorem findPivots_bounds {vals : List ℚ} {left right : ℕ} {kind : PivotKind} {p : ℕ}
    (hp : p ∈ findPivots vals left right kind) :
    left ≤ p ∧ p + right < vals.length := by
  have := mem_findPivots.mp hp
  exact ⟨this.2.1, this.2.2.1⟩

/-- Model of the IEEE-754 value lattice visible through pandas/NumPy float
arithmetic: a finite value (held exactly as a rational), the two infinities,
and `NaN`.  pandas' `notnull` is true on every constructor except `nan`,
which is exactly what the `notnull`-based row filters in the source test. -/
inductive FloatVal where
  | fin (q : ℚ)
  | pinf
  | ninf
  | nan
deriving DecidableEq

namespace FloatVal

/-- IEEE addition restricted to the values the embedding can produce
(no signed zeros; `∞ + (-∞) = NaN`, `NaN` absorbs). -/
def add : FloatVal → FloatVal → FloatVal
  | fin a, fin b => fin (a + b)
  | fin _, pinf => pinf
  | pinf, fin _ => pinf
  | fin _, ninf => ninf
  | ninf, fin _ => ninf
  | pinf, pinf => pinf
  | ninf, ninf => ninf
  | pinf, ninf => nan
  | ninf, pinf => nan
  | _, _ => nan

/-- IEEE negation. -/
def neg : FloatVal → FloatVal
  | fin a => fin (-a)
  | pinf => ninf
  | ninf => pinf
  | nan => nan

/-- IEEE subtraction, defined as `a + (-b)` which agrees with IEEE
subtraction on these values. -/
def sub (a b : FloatVal) : FloatVal := add a (neg b)

/-- IEEE multiplication (`0 * ∞ = NaN`, signs multiply, `NaN` absorbs). -/
def mul : FloatVal → FloatVal → FloatVal
  | fin a, fin b => fin (a * b)
  | fin a, pinf => if 0 < a then pinf else if a < 0 then ninf else nan
  | fin a, ninf => if 0 < a then ninf else if a < 0 then pinf else nan
  | pinf, fin b => if 0 < b then pinf else if b < 0 then ninf else nan
  | ninf, fin b => if 0 < b then ninf else if b < 0 then pinf else nan
  | pinf, pinf => pinf
  | ninf, ninf => pinf
  | pinf, ninf => ninf
  | ninf, pinf => ninf
  | _, _ => nan

/-- IEEE division as performed by pandas/NumPy on float columns:
`x/0 = ±∞` for `x ≠ 0`, `0/0 = NaN`, `x/±∞ = 0`, `±∞/±∞ = NaN`
(the embedding has no negative zero; a zero divisor behaves as `+0`). -/
def div : FloatVal → FloatVal → FloatVal
  | fin a, fin b =>
      if b = 0 then (if 0 < a then pinf else if a < 0 then ninf else nan)
      else fin (a / b)
  | fin _, pinf => fin 0
  | fin _, ninf => fin 0
  | pinf, fin b => if 0 ≤ b then pinf else ninf
  | ninf, fin b => if 0 ≤ b then ninf else pinf
  | _, _ => nan

/-- pandas `notnull` on a float cell: false exactly on `NaN`
(note that `±∞` counts as notnull and survives row filters). -/
def notnull : FloatVal → Bool
  | nan => false
  | _ => true

end FloatVal

/-- Embedding of `self.df['close'].diff()` at row `i`: `NaN` at row 0,
otherwise `close[i] - close[i-1]`. -/
def deltaAt (closes : List ℚ) (i : ℕ) : Option ℚ :=
  if i = 0 then none else some (closes.getD i 0 - closes.getD (i - 1) 0)

/-- Embedding of `delta.clip(lower=0)` at row `i` (`NaN` propagates). -/
def gainAt (closes : List ℚ) (i : ℕ) : Option ℚ :=
  (deltaAt closes i).map (fun d => max d 0)

/-- Embedding of `-delta.clip(upper=0)` at row `i` (`NaN` propagates). -/
def lossAt (closes : List ℚ) (i : ℕ) : Option ℚ :=
  (deltaAt closes i).map (fun d => -(min d 0))

/-- Embedding of pandas `Series.rolling(window=w, min_periods=w).mean()` at
row `i` over an optionally-`NaN` input column `f`: the window is rows
`[i+1-w, i]`; the result is defined iff that window holds `w` rows all of
which are non-`NaN`, and then equals their arithmetic mean.  This is also
the semantics of `rolling(window=w).mean()` (whose default `min_periods`
is the window size), used by `SMAIndicator.calculate`. -/
def rollingMeanAt (f : ℕ → Option ℚ) (w i : ℕ) : Option ℚ :=
  if i + 1 < w then none
  else
    let win := (List.range' (i + 1 - w) w).map f
    if win.all Option.isSome then some ((win.filterMap id).sum / w) else none

/-- Embedding of `Series.rolling(window=w).max()` at row `i` for a column
with no `NaN`s (the raw `high` column). -/
def rollingMaxAt (xs : List ℚ) (w i : ℕ) : Option ℚ :=
  if i + 1 < w then none
  else
    match (List.range' (i + 1 - w) w).map (fun j => xs.getD j 0) with
    | [] => none
    | a :: rest => some (rest.foldl max a)

/-- Embedding of `Series.rolling(window=w).min()` at row `i` for a column
with no `NaN`s (the raw `low` column). -/
def rollingMinAt (xs : List ℚ) (w i : ℕ) : Option ℚ :=
  if i + 1 < w then none
  else
    match (List.range' (i + 1 - w) w).map (fun j => xs.getD j 0) with
    | [] => none
    | a :: rest => some (rest.foldl min a)

/-- Embedding of `SMAIndicator.calculate` (line 267):
`df['SMA_period'] = df['close'].rolling(window=period).mean()`, one cell per
input row. -/
def smaColumn (closes : List ℚ) (period : ℕ) : List (Option ℚ) :=
  (List.range closes.length).map
    (rollingMeanAt (fun j => some (closes.getD j 0)) period)

/-- Embedding of the per-row value of `RSIIndicator.calculate`
(lines 423-430): `rs = avg_gain / avg_loss` with IEEE division (so a zero
`avg_loss` under a positive `avg_gain` gives `rs = +∞`), then
`RSI = 100 - (100 / (1 + rs))`. -/
def rsiAt (closes : List ℚ) (window i : ℕ) : FloatVal :=
  let rs : FloatVal :=
    match rollingMeanAt (gainAt closes) window i,
          rollingMeanAt (lossAt closes) window i with
    | some g, some l => FloatVal.div (.fin g) (.fin l)
    | _, _ => .nan
  FloatVal.sub (.fin 100) (FloatVal.div (.fin 100) (FloatVal.add (.fin 1) rs))

/-- Column written as `df['RSI_14']` by `RSIIndicator.calculate`. -/
def rsiColumn (closes : List ℚ) (window : ℕ) : List FloatVal :=
  (List.range closes.length).map (rsiAt closes window)

/-- Embedding of the per-row value of `WilliamsRIndicator.calculate`
(lines 479-482): `-100 * (highest_high - close) / (highest_high - lowest_low)`
with IEEE semantics (a flat window gives `0/0 = NaN`). -/
def williamsAt (highs lows closes : List ℚ) (period i : ℕ) : FloatVal :=
  match rollingMaxAt highs period i, rollingMinAt lows period i with
  | some hh, some ll =>
      FloatVal.div (FloatVal.mul (.fin (-100)) (.fin (hh - closes.getD i 0)))
        (.fin (hh - ll))
  | _, _ => .nan

/-- Column written as `df['Williams_R']` by `WilliamsRIndicator.calculate`. -/
def williamsColumn (highs lows closes : List ℚ) (period : ℕ) : List FloatVal :=
  (List.range closes.length).map (williamsAt highs lows closes period)

/-- Embedding of `Series.ewm(span=span, adjust=False).mean()` after the
first row: `y_t = (1 - α) * y_{t-1} + α * x_t` with `α = 2 / (span + 1)`. -/
def ewmGo (a : ℚ) (prev : ℚ) : List ℚ → List ℚ
  | [] => []
  | x :: xs =>
      let y := (1 - a) * prev + a * x
      y :: ewmGo a y xs

/-- Embedding of `Series.ewm(span=span, adjust=False).mean()`: seeded by the
first value, recursive afterwards; defined (finite) at every row. -/
def ewmAdjustFalse (span : ℕ) : List ℚ → List ℚ
  | [] => []
  | x :: xs => x :: ewmGo (2 / (span + 1)) x xs

/-- Embedding of `MACDIndicator.calculate` (lines 338-348): the
`MACD_hist` column, `(EMA_fast - EMA_slow) - signal`, one finite cell per
row. -/
def macdHistColumn (closes : List ℚ) (fast slow signal : ℕ) : List ℚ :=
  let macd := List.zipWith (· - ·) (ewmAdjustFalse fast closes) (ewmAdjustFalse slow closes)
  List.zipWith (· - ·) macd (ewmAdjustFalse signal macd)

/-- Embedding of the row filter + record building shared by the pane methods
of `RSIIndicator`, `WilliamsRIndicator` and `MACDIndicator`: rows whose value
is `NaN` are removed (`data[data['value'].notnull()]`) and the survivors
become `{time, value}` records in row order.  Note `±∞` passes `notnull`. -/
def paneData (dates : List String) (col : List FloatVal) : List (String × FloatVal) :=
  (dates.zip col).filter (fun p => p.2.notnull)

/-- Embedding of the same row filter for an `Option`-valued column (used by
`SMAIndicator.get_series_configs`, line 278, where the only possible
non-finite cell is `NaN` from insufficient history). -/
def optPaneData (dates : List String) (col : List (Option ℚ)) : List (String × ℚ) :=
  (dates.zip col).filterMap (fun p => p.2.map (fun v => (p.1, v)))

/-- Embedding of the constant-0 zero-reference line built intentionally by
`MACDIndicator.pane` (lines 368-372): one record per row, no filtering. -/
def macdZeroLineData (dates : List String) : List (String × ℚ) :=
  dates.map (fun t => (t, 0))

/-- Embedding of NumPy `cumsum` (running sums, seeded by `acc`). -/
def cumsumFrom (acc : ℚ) : List ℚ → List ℚ
  | [] => []
  | x :: xs => (acc + x) :: cumsumFrom (acc + x) xs

/-- Running sums of a list, as produced by `Series.cumsum()`. -/
def cumsum (xs : List ℚ) : List ℚ := cumsumFrom 0 xs

/-- Embedding of `AVWAPIndicator._calculate_anchored_vwap` (lines 620-643):
over the row slice `[startIdx, endIdx)`, running sum of `price * volume`
divided by running sum of `volume`, with a zero running volume giving `NaN`
(`np.where(cumulative_volume != 0, ..., np.nan)`).  `price` is the `high`
column for high-anchors and the `low` column for low-anchors (the two
branches of the source differ only in that column choice). -/
def anchoredVwap (price volume : List ℚ) (startIdx endIdx : ℕ) : List (Option ℚ) :=
  let segPrice := (price.drop startIdx).take (endIdx - startIdx)
  let segVol := (volume.drop startIdx).take (endIdx - startIdx)
  let pv := cumsum (List.zipWith (· * ·) segPrice segVol)
  let cv := cumsum segVol
  List.zipWith (fun a b => if b ≠ 0 then some (a / b) else none) pv cv

/-- Embedding of the pandas slice assignment
`df.loc[df.index[lo : lo + len(vals)], col] = vals`: cell `lo + k` receives
`vals[k]`; cells outside the written window keep their value. -/
def writeSlice : List (Option ℚ) → ℕ → List (Option ℚ) → List (Option ℚ)
  | [], _, _ => []
  | x :: xs, lo + 1, vals => x :: writeSlice xs lo vals
  | x :: xs, 0, [] => x :: xs
  | _ :: xs, 0, v :: vs => v :: writeSlice xs 0 vs

/-- Embedding of the per-pivot loop of `AVWAPIndicator.calculate`
(lines 657-680 for the high column; 683-706 is the same loop over the low
column): for the pivot at the head, the segment end is the next pivot of
the same kind (or the end of data) in normal mode and always the end of
data in realistic mode; plotting starts at the pivot in normal mode and at
`pivot + right_strength` in realistic mode; the anchored-VWAP values for
`[plotStart, endIdx)` are written into the column, then the remaining
pivots are processed. -/
def avwapFill (price volume : List ℚ) (right : ℕ) (realistic : Bool) :
    List ℕ → List (Option ℚ) → List (Option ℚ)
  | [], col => col
  | p :: rest, col =>
      let N := price.length
      let endIdx := if realistic then N else (match rest with | [] => N | q :: _ => q)
      let plotStart := if realistic then p + right else p
      let vwap := anchoredVwap price volume p endIdx
      avwapFill price volume right realistic rest
        (writeSlice col plotStart (vwap.drop (plotStart - p)))

/-- Column `AVWAP_high_left_right` (resp. `..._low_...`) produced by
`AVWAPIndicator.calculate`: initialized to all-`NaN`, then filled pivot by
pivot. -/
def avwapColumn (price volume : List ℚ) (pivots : List ℕ) (right : ℕ)
    (realistic : Bool) : List (Option ℚ) :=
  avwapFill price volume right realistic pivots (List.replicate price.length none)

/-- Embedding of the segment-data loops inside
`AVWAPIndicator.get_series_configs` (e.g. lines 749-757): for
`idx in range(lo, hi)`, guarded by `idx < len(df)`, a row is emitted iff the
column cell is not `NaN`, as the record `(str(date[idx]), value)`. -/
def segmentData (dates : List String) (col : List (Option ℚ)) (N lo hi : ℕ) :
    List (String × ℚ) :=
  (List.range' lo (hi - lo)).filterMap (fun idx =>
    if idx < N then (col.getD idx none).map (fun v => (dates.getD idx "", v)) else none)

/-- Embedding of `AVWAPIndicator.get_series_configs` for one pivot kind
(lines 738-822 for highs; 824-909 repeats the identical logic for lows):
per pivot, in normal mode a dashed sub-series over the first
`right_strength` bars and a solid sub-series for the rest of the segment,
in realistic mode one sub-series starting at the confirmation bar and
ending at the next pivot's confirmation (or end of data); empty data lists
emit no descriptor.  The boolean marks a dashed (`lineStyle = 2`)
descriptor. -/
def avwapConfigs (dates : List String) (col : List (Option ℚ)) (right N : ℕ)
    (realistic : Bool) : List ℕ → List (Bool × List (String × ℚ))
  | [] => []
  | p :: rest =>
      if realistic then
        let endIdx := match rest with | [] => N | q :: _ => q + right
        let seg := segmentData dates col N (p + right) endIdx
        (if seg.isEmpty then [] else [(false, seg)]) ++
          avwapConfigs dates col right N realistic rest
      else
        let endIdx := match rest with | [] => N | q :: _ => q
        let dashed := segmentData dates col N p (min (p + right) endIdx)
        let solid := segmentData dates col N (p + right) endIdx
        ((if dashed.isEmpty then [] else [(true, dashed)]) ++
          (if solid.isEmpty then [] else [(false, solid)])) ++
          avwapConfigs dates col right N realistic rest

/-- Embedding of the normal-mode forward scan shared by
`PivotHighIndicator.calculate` (lines 1004-1043) and
`PivotHighIndicator.get_series_configs` (lines 1137-1161): for
`j in range(pivotIdx + 1, N)`, first test `close[j] > pivot_price` (ending
at `j`), otherwise test whether `j` has reached the confirmation point of a
later pivot (ending at that confirmation point `next_pivot + right`);
if the scan never fires, the ray extends to the last bar (`N`). -/
def rayEndNormal (closes : List ℚ) (price : ℚ) (laterPivots : List ℕ)
    (right N pivotIdx : ℕ) : ℕ :=
  match (List.range' (pivotIdx + 1) (N - (pivotIdx + 1))).findSome? (fun j =>
      if price < closes.getD j 0 then some j
      else (laterPivots.find? (fun q => decide (q + right ≤ j))).map (fun q => q + right))
  with
  | some e => e
  | none => N

/-- Embedding of the realistic-mode forward scan of
`PivotHighIndicator.calculate` (lines 1027-1039) and
`PivotHighIndicator.get_series_configs` (lines 1092-1111): the scan starts
one past the confirmation bar `pivotIdx + right`, and the later-pivot test
is an equality test `j == next_pivot + right` ending at `j` itself. -/
def rayEndRealistic (closes : List ℚ) (price : ℚ) (laterPivots : List ℕ)
    (right N pivotIdx : ℕ) : ℕ :=
  match (List.range' (pivotIdx + right + 1) (N - (pivotIdx + right + 1))).findSome? (fun j =>
      if price < closes.getD j 0 then some j
      else if (laterPivots.find? (fun q => decide (q + right = j))).isSome then some j
      else none)
  with
  | some e => e
  | none => N

/-- Embedding of the cell writes
`for j in range(plotStart, endIdx): if j < len(df): col[j] = price` in
`PivotHighIndicator.calculate` (lines 1046-1048). -/
def writeRange : List (Option ℚ) → ℕ → ℕ → ℚ → List (Option ℚ)
  | [], _, _, _ => []
  | x :: xs, lo, hi, v =>
      (if lo = 0 ∧ 0 < hi then some v else x) :: writeRange xs (lo - 1) (hi - 1) v

/-- Embedding of the per-pivot loop of `PivotHighIndicator.calculate`
(lines 992-1048): the pivot price is held over `[plotStart, endIdx)` where
`plotStart` is the pivot (normal mode) or its confirmation bar (realistic
mode) and `endIdx` comes from the corresponding forward scan. -/
def pivotHighFill (highs closes : List ℚ) (right : ℕ) (realistic : Bool) :
    List ℕ → List (Option ℚ) → List (Option ℚ)
  | [], col => col
  | p :: rest, col =>
      let N := highs.length
      let price := highs.getD p 0
      let plotStart := if realistic then p + right else p
      let endIdx := if realistic then rayEndRealistic closes price rest right N p
                    else rayEndNormal closes price rest right N p
      pivotHighFill highs closes right realistic rest (writeRange col plotStart endIdx price)

/-- Column `PivotHigh_left_right` produced by `PivotHighIndicator.calculate`:
initialized to all-`NaN`, then filled pivot by pivot. -/
def pivotHighColumn (highs closes : List ℚ) (pivots : List ℕ) (right : ℕ)
    (realistic : Bool) : List (Option ℚ) :=
  pivotHighFill highs closes right realistic pivots (List.replicate highs.length none)

/-- Embedding of the constant-price segment loops in
`PivotHighIndicator.get_series_configs` (e.g. lines 1114-1120): every index
of `range(lo, hi)` below `len(df)` contributes the record
`(str(date[idx]), pivot_price)` — there is no `NaN` filter here. -/
def constSegData (dates : List String) (N lo hi : ℕ) (price : ℚ) :
    List (String × ℚ) :=
  (List.range' lo (hi - lo)).filterMap (fun idx =>
    if idx < N then some (dates.getD idx "", price) else none)

/-- Embedding of `PivotHighIndicator.get_series_configs` (lines 1075-1208):
per pivot, realistic mode draws one solid ray from the confirmation bar to
the scan end; normal mode draws a dashed ray over the confirmation window
(clipped by the scan end) then a solid ray to the scan end; empty data
lists emit no descriptor.  The boolean marks a dashed descriptor. -/
def pivotHighConfigs (dates : List String) (highs closes : List ℚ)
    (right N : ℕ) (realistic : Bool) : List ℕ → List (Bool × List (String × ℚ))
  | [] => []
  | p :: rest =>
      let price := highs.getD p 0
      if realistic then
        let e := rayEndRealistic closes price rest right N p
        let seg := constSegData dates N (p + right) e price
        (if seg.isEmpty then [] else [(false, seg)]) ++
          pivotHighConfigs dates highs closes right N realistic rest
      else
        let e := rayEndNormal closes price rest right N p
        let dEnd := min (p + right) e
        let dashed := constSegData dates N p dEnd price
        let solid := constSegData dates N dEnd e price
        ((if dashed.isEmpty then [] else [(true, dashed)]) ++
          (if solid.isEmpty then [] else [(false, solid)])) ++
          pivotHighConfigs dates highs closes right N realistic rest

/-- Embedding of the percent-change computation in `PriceIndicator.pane`
(lines 135-139): `last_close = close.iloc[-1]`, `prev_close = close.iloc[-2]`,
`pct = (last - prev) / prev * 100`.  `iloc[-2]` raises `IndexError` on a
series shorter than 2 rows — there is no guard in the source — which the
embedding models as `none` (the method aborts, no pane is returned).  The
division is IEEE: a zero `prev_close` gives `±∞`/`NaN`, not an omitted
suffix. -/
def paneTitlePct (closes : List ℚ) : Option FloatVal :=
  if 2 ≤ closes.length then
    let lastC : FloatVal := .fin (closes.getD (closes.length - 1) 0)
    let prevC : FloatVal := .fin (closes.getD (closes.length - 2) 0)
    some (FloatVal.mul (FloatVal.div (FloatVal.sub lastC prevC) prevC) (.fin 100))
  else none

/-- Marker record attached verbatim to a base series
(`PriceIndicator.markers`). -/
structure Marker where
  time : String
  text : String
deriving DecidableEq

/-- Series descriptor as assembled by `PriceIndicator.pane`: its data
records, a label, and the markers attached to it (an empty list models an
absent `"markers"` key). -/
structure SeriesConfig where
  data : List (String × ℚ)
  label : String
  markers : List Marker
deriving DecidableEq

/-- Embedding of the overlay loop of `PriceIndicator.pane` (lines 185-195):
starting from `[series_config]`, each overlay's `get_series_configs()`
result is appended in the order the overlays were given. -/
def composeSeriesConfigs (base : SeriesConfig) (overlayConfigs : List (List SeriesConfig)) :
    List SeriesConfig :=
  overlayConfigs.foldl (fun acc cfgs => acc ++ cfgs) [base]

/-- Embedding of `if self.markers: series_configs[0]["markers"] = self.markers`
(lines 197-199): when markers are present they are written onto the first
descriptor; no new descriptor is appended. -/
def attachMarkers (markers : List Marker) (cfgs : List SeriesConfig) : List SeriesConfig :=
  if markers.isEmpty then cfgs
  else
    match cfgs with
    | [] => []
    | c :: rest => { c with markers := markers } :: rest

/-- Series list returned inside the pane of `PriceIndicator.pane`. -/
def paneSeries (base : SeriesConfig) (overlayConfigs : List (List SeriesConfig))
    (markers : List Marker) : List SeriesConfig :=
  attachMarkers markers (composeSeriesConfigs base overlayConfigs)

/-- State of an `SMAIndicator`: the shared frame columns it reads plus the
derived column it owns.  `calculate` (line 267) recomputes the derived
column from `close` alone. -/
structure SMAState where
  date : List String
  close : List ℚ
  smaCol : List (Option ℚ)
deriving DecidableEq

/-- Embedding of `SMAIndicator.calculate`. -/
def smaCalculate (period : ℕ) (s : SMAState) : SMAState :=
  { s with smaCol := smaColumn s.close period }

/-- Embedding of `SMAIndicator.get_series_configs` data (lines 275-278). -/
def smaConfigData (s : SMAState) : List (String × ℚ) :=
  optPaneData s.date s.smaCol

/-- State of an `AVWAPIndicator`: the shared frame columns it reads plus its
derived columns and pivot index lists.  `calculate` (lines 645-706)
recomputes all of them from `high`, `low` and `volume` alone, resetting the
two output columns to all-`NaN` first. -/
structure AVWAPState where
  date : List String
  high : List ℚ
  low : List ℚ
  volume : List ℚ
  avwapHigh : List (Option ℚ)
  avwapLow : List (Option ℚ)
  pivotHighIdx : List ℕ
  pivotLowIdx : List ℕ
deriving DecidableEq

/-- Embedding of `AVWAPIndicator.calculate`. -/
def avwapCalculate (left right : ℕ) (realistic : Bool) (s : AVWAPState) : AVWAPState :=
  let ph := findPivots s.high left right .high
  let pl := findPivots s.low left right .low
  { s with
      pivotHighIdx := ph
      pivotLowIdx := pl
      avwapHigh := avwapColumn s.high s.volume ph right realistic
      avwapLow := avwapColumn s.low s.volume pl right realistic }

/-- Series configurations emitted by `AVWAPIndicator.get_series_configs`
for one state (high-anchored followed by low-anchored, as in the source
when both kinds are shown). -/
def avwapStateConfigs (right : ℕ) (realistic : Bool) (s : AVWAPState) :
    List (Bool × List (String × ℚ)) :=
  avwapConfigs s.date s.avwapHigh right s.high.length realistic s.pivotHighIdx ++
    avwapConfigs s.date s.avwapLow right s.high.length realistic s.pivotLowIdx

/-- State of a `PivotHighIndicator`: the shared frame columns it reads plus
its derived column and pivot index list.  `calculate` (lines 982-1048)
recomputes both from `high` and `close` alone, resetting the output column
to all-`NaN` first. -/
structure PivotHighState where
  date : List String
  high : List ℚ
  close : List ℚ
  pivotCol : List (Option ℚ)
  pivotHighIdx : List ℕ
deriving DecidableEq

/-- Embedding of `PivotHighIndicator.calculate`. -/
def pivotHighCalculate (left right : ℕ) (realistic : Bool) (s : PivotHighState) :
    PivotHighState :=
  let ph := findPivots s.high left right .high
  { s with
      pivotHighIdx := ph
      pivotCol := pivotHighColumn s.high s.close ph right realistic }

/-- Series configurations emitted by `PivotHighIndicator.get_series_configs`
for one state. -/
def pivotHighStateConfigs (right : ℕ) (realistic : Bool) (s : PivotHighState) :
    List (Bool × List (String × ℚ)) :=
  pivotHighConfigs s.date s.high s.close right s.high.length realistic s.pivotHighIdx

/-! ### General helper lemmas -/

theorem getD_map_range {α : Type} (g : ℕ → α) (d : α) {N i : ℕ} (h : i < N) :
    ((List.range N).map g).getD i d = g i := by
  rw [List.getD_eq_getElem?_getD, List.getElem?_map, List.getElem?_range h]
  rfl

theorem zip_countP_snd {α β : Type} (p : β → Bool) :
    ∀ (as : List α) (bs : List β), as.length = bs.length →
      (as.zip bs).countP (fun x => p x.2) = bs.countP p
  | [], [], _ => rfl
  | _ :: as, b :: bs, h => by
      rw [List.zip_cons_cons, List.countP_cons, List.countP_cons,
        zip_countP_snd p as bs (by simpa using h)]

theorem countP_range_le (k N : ℕ) :
    (List.range N).countP (fun i => decide (k ≤ i)) = N - k := by
  induction N with
  | zero => simp
  | succ n ih =>
      rw [List.range_succ, List.countP_append, ih]
      by_cases h : k ≤ n
      · simp [h]
        omega
      · simp [h]
        omega

/-! ### Claim C3 — the pivot detector -/

theorem isPivotAt_iff (vals : List ℚ) (left right : ℕ) (kind : PivotKind) (i : ℕ) :
    isPivotAt vals left right kind i = true ↔
      (∀ j, 1 ≤ j → j ≤ left →
        (match kind with
         | .high => vals.getD (i - j) 0 < vals.getD i 0
         | .low => vals.getD i 0 < vals.getD (i - j) 0)) ∧
      (∀ j, 1 ≤ j → j ≤ right →
        (match kind with
         | .high => vals.getD (i + j) 0 < vals.getD i 0
         | .low => vals.getD i 0 < vals.getD (i + j) 0)) := by
  cases kind <;>
  · simp only [isPivotAt, Bool.and_eq_true, List.all_eq_true, List.mem_range,
      decide_eq_true_eq]
    constructor
    · rintro ⟨h1, h2⟩
      constructor
      · intro j hj1 hj2
        have := h1 (j - 1) (by omega)
        simpa [Nat.sub_add_cancel hj1] using this
      · intro j hj1 hj2
        have := h2 (j - 1) (by omega)
        simpa [Nat.sub_add_cancel hj1] using this
    · rintro ⟨h1, h2⟩
      exact ⟨fun j hj => h1 (j + 1) (by omega) (by omega),
             fun j hj => h2 (j + 1) (by omega) (by omega)⟩

/-- C3: for every value sequence and strengths `(left, right)`, the pivot
detector returns `[]` whenever `len(values) < left + right + 1`; the
returned indices are strictly ascending; and an index `i` is returned iff
`left ≤ i < len - right` and `values[i]` is a strict extremum against every
neighbor `values[i ∓ j]` for `j ∈ [1, left]` on the left and `j ∈ [1, right]`
on the right (`>` for kind `high`, `<` for kind `low`) — in particular ties
never register as pivots. -/
theorem claim_C3 (vals : List ℚ) (left right : ℕ) (kind : PivotKind) :
    (vals.length < left + right + 1 → findPivots vals left right kind = []) ∧
    (findPivots vals left right kind).Pairwise (· < ·) ∧
    (∀ i : ℕ, i ∈ findPivots vals left right kind ↔
      left ≤ i ∧ i + right < vals.length ∧
      (∀ j, 1 ≤ j → j ≤ left →
        (match kind with
         | .high => vals.getD (i - j) 0 < vals.getD i 0
         | .low => vals.getD i 0 < vals.getD (i - j) 0)) ∧
      (∀ j, 1 ≤ j → j ≤ right →
        (match kind with
         | .high => vals.getD (i + j) 0 < vals.getD i 0
         | .low => vals.getD i 0 < vals.getD (i + j) 0))) := by
  refine ⟨findPivots_short, findPivots_sorted vals left right kind, fun i => ?_⟩
  rw [mem_findPivots, isPivotAt_iff]
  constructor
  · rintro ⟨-, h1, h2, h3⟩
    exact ⟨h1, h2, h3⟩
  · rintro ⟨h1, h2, h3⟩
    exact ⟨by omega, h1, h2, h3⟩

/-! ### Claim C7 — SMA warm-up count and values -/

theorem optPaneData_length (dates : List String) (col : List (Option ℚ))
    (h : dates.length = col.length) :
    (optPaneData dates col).length = col.countP (fun o => o.isSome) := by
  rw [optPaneData, List.length_filterMap_eq_countP]
  have : (fun p : String × Option ℚ => (p.2.map (fun v => (p.1, v))).isSome)
      = fun p : String × Option ℚ => p.2.isSome := by
    funext p
    cases p.2 <;> rfl
  rw [this]
  exact zip_countP_snd _ dates col h

theorem smaColumn_getD (closes : List ℚ) (period i : ℕ) (h : i < closes.length) :
    (smaColumn closes period).getD i none =
      rollingMeanAt (fun j => some (closes.getD j 0)) period i := by
  exact getD_map_range _ none h

theorem rollingMeanAt_some_isSome (f : ℕ → ℚ) (w i : ℕ) :
    (rollingMeanAt (fun j => some (f j)) w i).isSome = decide (w ≤ i + 1) := by
  rw [rollingMeanAt]
  split
  · next h => simp; omega
  · next h =>
    have hall : ((List.range' (i + 1 - w) w).map fun j => some (f j)).all Option.isSome
        = true := by
      rw [List.all_eq_true]
      intro x hx
      obtain ⟨j, -, rfl⟩ := List.mem_map.mp hx
      rfl
    simp only [hall, if_true]
    simp
    omega

/-- C7: on an `N`-bar close series, the SMA overlay emits exactly
`max(0, N - period + 1)` points (here `N + 1 - period` in truncated ℕ
subtraction): the first `period - 1` cells are `NaN` and are filtered out,
and every defined cell equals the arithmetic mean of the trailing `period`
closes. -/
theorem claim_C7 (dates : List String) (closes : List ℚ) (period : ℕ)
    (hp : 0 < period) (hd : dates.length = closes.length) :
    (optPaneData dates (smaColumn closes period)).length = closes.length + 1 - period ∧
    (∀ i, i + 1 < period → i < closes.length →
      (smaColumn closes period).getD i none = none) ∧
    (∀ i, period ≤ i + 1 → i < closes.length →
      (smaColumn closes period).getD i none =
        some ((((List.range' (i + 1 - period) period).map
          (fun j => closes.getD j 0)).sum) / period)) := by
  refine ⟨?_, ?_, ?_⟩
  · rw [optPaneData_length dates _ (by simpa [smaColumn] using hd), smaColumn,
      List.countP_map]
    have : ((fun o : Option ℚ => o.isSome) ∘ rollingMeanAt (fun j => some (closes.getD j 0)) period)
        = fun i => decide (period - 1 ≤ i) := by
      funext i
      simp only [Function.comp]
      rw [rollingMeanAt_some_isSome]
      exact decide_eq_decide.mpr (by omega)
    rw [this, countP_range_le]
    omega
  · intro i h1 h2
    rw [smaColumn_getD closes period i h2, rollingMeanAt, if_pos h1]
  · intro i h1 h2
    rw [smaColumn_getD closes period i h2, rollingMeanAt, if_neg (by omega)]
    have hall : ((List.range' (i + 1 - period) period).map
        fun j => some (closes.getD j 0)).all Option.isSome = true := by
      rw [List.all_eq_true]
      intro x hx
      obtain ⟨j, -, rfl⟩ := List.mem_map.mp hx
      rfl
    simp only [hall, if_true]
    congr 1
    rw [List.filterMap_map]
    have hcomp : (id ∘ fun j => some (closes.getD j 0))
        = some ∘ fun j => closes.getD j 0 := rfl
    rw [hcomp, List.filterMap_eq_map]

/-- Witness for C7 at a concrete input: 4 closes, `period = 2`, emitting
3 points. -/
theorem claim_C7_witness :
    0 < 2 ∧ (["a","b","c","d"] : List String).length = ([1,2,3,4] : List ℚ).length ∧
    (optPaneData ["a","b","c","d"] (smaColumn [1,2,3,4] 2)).length = 4 + 1 - 2 :=
  ⟨by decide, by decide,
    (claim_C7 ["a","b","c","d"] [1,2,3,4] 2 (by decide) (by decide)).1⟩

/-! ### RSI lemmas (claims C4 and C6) -/

theorem rollingMeanAt_diff_isSome (f : ℕ → Option ℚ)
    (hf : ∀ j, (f j).isSome = decide (j ≠ 0)) (w i : ℕ) (hw : 0 < w) :
    (rollingMeanAt f w i).isSome = decide (w ≤ i) := by
  rw [rollingMeanAt]
  split
  · next h => symm; simp; omega
  · next h =>
    by_cases hz : w ≤ i
    · have hall : ((List.range' (i + 1 - w) w).map f).all Option.isSome = true := by
        rw [List.all_eq_true]
        intro x hx
        obtain ⟨j, hj, rfl⟩ := List.mem_map.mp hx
        rw [List.mem_range'_1] at hj
        rw [hf j]
        simp
        omega
      simp only [hall, if_true, Option.isSome_some, hz, decide_eq_true_eq]
      simp [hz]
    · have hmem : (0 : ℕ) ∈ List.range' (i + 1 - w) w := by
        rw [List.mem_range'_1]
        omega
      have hfail : ¬ (((List.range' (i + 1 - w) w).map f).all Option.isSome = true) := by
        rw [List.all_eq_true]
        intro hall
        have := hall (f 0) (List.mem_map_of_mem f hmem)
        rw [hf 0] at this
        simp at this
      rw [if_neg hfail]
      simp [hz]

theorem gainAt_isSome (closes : List ℚ) (j : ℕ) :
    (gainAt closes j).isSome = decide (j ≠ 0) := by
  by_cases h : j = 0 <;> simp [gainAt, deltaAt, h]

theorem lossAt_isSome (closes : List ℚ) (j : ℕ) :
    (lossAt closes j).isSome = decide (j ≠ 0) := by
  by_cases h : j = 0 <;> simp [lossAt, deltaAt, h]

theorem gainAt_nonneg (closes : List ℚ) (j : ℕ) {q : ℚ}
    (h : gainAt closes j = some q) : 0 ≤ q := by
  rw [gainAt] at h
  cases hd : deltaAt closes j with
  | none => rw [hd] at h; simp at h
  | some d =>
      rw [hd] at h
      simp only [Option.map_some'] at h
      cases h
      exact le_max_right d 0

theorem lossAt_nonneg (closes : List ℚ) (j : ℕ) {q : ℚ}
    (h : lossAt closes j = some q) : 0 ≤ q := by
  rw [lossAt] at h
  cases hd : deltaAt closes j with
  | none => rw [hd] at h; simp at h
  | some d =>
      rw [hd] at h
      simp only [Option.map_some'] at h
      cases h
      simp only [neg_nonneg]
      exact min_le_right d 0

theorem rollingMeanAt_nonneg (f : ℕ → Option ℚ)
    (hf : ∀ j q, f j = some q → 0 ≤ q) (w i : ℕ) {q : ℚ}
    (h : rollingMeanAt f w i = some q) : 0 ≤ q := by
  rw [rollingMeanAt] at h
  split at h
  · exact absurd h (by simp)
  · dsimp only at h
    split at h
    · next =>
      cases h
      apply div_nonneg
      · apply List.sum_nonneg
        intro x hx
        obtain ⟨o, ho, hox⟩ := List.mem_filterMap.mp hx
        obtain ⟨j, -, rfl⟩ := List.mem_map.mp ho
        exact hf j x hox
      · positivity
    · exact absurd h (by simp)

theorem rsiAt_of_lt (closes : List ℚ) (w i : ℕ) (hw : 0 < w) (h : i < w) :
    rsiAt closes w i = .nan := by
  have hg : rollingMeanAt (gainAt closes) w i = none := by
    have := rollingMeanAt_diff_isSome (gainAt closes) (gainAt_isSome closes) w i hw
    rw [decide_eq_false (by omega)] at this
    exact Option.not_isSome_iff_eq_none.mp (by simp [this])
  rw [rsiAt, hg]
  rfl

theorem rsiAt_flat (closes : List ℚ) (w i : ℕ)
    (hg : rollingMeanAt (gainAt closes) w i = some 0)
    (hl : rollingMeanAt (lossAt closes) w i = some 0) :
    rsiAt closes w i = .nan := by
  rw [rsiAt, hg, hl]
  rfl

theorem rsiAt_zero_loss (closes : List ℚ) (w i : ℕ) {g : ℚ}
    (hg : rollingMeanAt (gainAt closes) w i = some g) (hgpos : 0 < g)
    (hl : rollingMeanAt (lossAt closes) w i = some 0) :
    rsiAt closes w i = .fin 100 := by
  rw [rsiAt, hg, hl]
  show FloatVal.sub (.fin 100) (FloatVal.div (.fin 100)
    (FloatVal.add (.fin 1) (FloatVal.div (.fin g) (.fin 0)))) = .fin 100
  rw [FloatVal.div, if_pos rfl, if_pos hgpos]
  show FloatVal.sub (.fin 100) (FloatVal.div (.fin 100) FloatVal.pinf) = .fin 100
  show FloatVal.add (.fin 100) (FloatVal.neg (.fin 0)) = .fin 100
  show FloatVal.fin (100 + -0) = .fin 100
  norm_num

theorem rsiAt_pos_loss (closes : List ℚ) (w i : ℕ) {g l : ℚ}
    (hg : rollingMeanAt (gainAt closes) w i = some g) (hgnn : 0 ≤ g)
    (hl : rollingMeanAt (lossAt closes) w i = some l) (hlpos : 0 < l) :
    rsiAt closes w i = .fin (100 - 100 / (1 + g / l)) := by
  rw [rsiAt, hg, hl]
  show FloatVal.sub (.fin 100) (FloatVal.div (.fin 100)
    (FloatVal.add (.fin 1) (FloatVal.div (.fin g) (.fin l)))) = _
  have h1 : FloatVal.div (.fin g) (.fin l) = .fin (g / l) := by
    rw [FloatVal.div, if_neg (by exact ne_of_gt hlpos)]
  rw [h1]
  show FloatVal.sub (.fin 100) (FloatVal.div (.fin 100) (.fin (1 + g / l))) = _
  have hpos : (0 : ℚ) < 1 + g / l := by positivity
  rw [FloatVal.div, if_neg (by exact ne_of_gt hpos)]
  show FloatVal.fin (100 + -(100 / (1 + g / l))) = _
  norm_num
  ring_nf

theorem rsiAt_notnull_iff (closes : List ℚ) (w i : ℕ) (hw : 0 < w) :
    (rsiAt closes w i).notnull = true ↔
      w ≤ i ∧ ¬(rollingMeanAt (gainAt closes) w i = some 0 ∧
        rollingMeanAt (lossAt closes) w i = some 0) := by
  by_cases hi : w ≤ i
  · obtain ⟨g, hg⟩ := Option.isSome_iff_exists.mp (by
      rw [rollingMeanAt_diff_isSome (gainAt closes) (gainAt_isSome closes) w i hw]
      exact decide_eq_true hi)
    obtain ⟨l, hl⟩ := Option.isSome_iff_exists.mp (by
      rw [rollingMeanAt_diff_isSome (lossAt closes) (lossAt_isSome closes) w i hw]
      exact decide_eq_true hi)
    have hgnn : 0 ≤ g := rollingMeanAt_nonneg _ (gainAt_nonneg closes) w i hg
    have hlnn : 0 ≤ l := rollingMeanAt_nonneg _ (lossAt_nonneg closes) w i hl
    by_cases hl0 : l = 0
    · subst hl0
      by_cases hg0 : g = 0
      · subst hg0
        rw [rsiAt_flat closes w i hg hl]
        simp [FloatVal.notnull, hi, hg, hl]
      · rw [rsiAt_zero_loss closes w i hg (lt_of_le_of_ne hgnn (Ne.symm hg0)) hl]
        simp only [FloatVal.notnull, true_iff, hi, true_and]
        rintro ⟨hg', -⟩
        rw [hg] at hg'
        exact hg0 (Option.some_injective ℚ hg')
    · rw [rsiAt_pos_loss closes w i hg hgnn hl (lt_of_le_of_ne hlnn (Ne.symm hl0))]
      simp only [FloatVal.notnull, true_iff, hi, true_and]
      rintro ⟨-, hl'⟩
      rw [hl] at hl'
      exact hl0 (Option.some_injective ℚ hl')
  · rw [rsiAt_of_lt closes w i hw (by omega)]
    simp [FloatVal.notnull, hi]

theorem paneData_length (dates : List String) (col : List FloatVal)
    (h : dates.length = col.length) :
    (paneData dates col).length = col.countP FloatVal.notnull := by
  rw [paneData, ← List.countP_eq_length_filter]
  exact zip_countP_snd _ dates col h

theorem rsiColumn_length (closes : List ℚ) (w : ℕ) :
    (rsiColumn closes w).length = closes.length := by
  simp [rsiColumn]

/-- C6 (amended): on an `N`-bar close series the RSI pane emits at most
`max(0, N - window)` points: the first `window` cells are always `NaN` and
are filtered out, and a later cell is additionally `NaN` (it is `0/0`)
exactly when its trailing window of price changes is completely flat; when
no window is flat — the hypothesis below — the emitted count is exactly
`N - window`. -/
theorem claim_C6_amended (dates : List String) (closes : List ℚ) (window : ℕ)
    (hw : 0 < window) (hd : dates.length = closes.length)
    (hflat : ∀ i, i < closes.length → window ≤ i →
      ¬(rollingMeanAt (gainAt closes) window i = some 0 ∧
        rollingMeanAt (lossAt closes) window i = some 0)) :
    (∀ i, i < window → i < closes.length →
      (rsiColumn closes window).getD i .nan = .nan) ∧
    (paneData dates (rsiColumn closes window)).length = closes.length - window := by
  constructor
  · intro i h1 h2
    rw [rsiColumn, getD_map_range _ _ h2]
    exact rsiAt_of_lt closes window i hw h1
  · rw [paneData_length dates _ (by rw [rsiColumn_length]; exact hd), rsiColumn,
      List.countP_map]
    have hcongr : ∀ i ∈ List.range closes.length,
        (FloatVal.notnull ∘ rsiAt closes window) i = true ↔ decide (window ≤ i) = true := by
      intro i hi
      rw [List.mem_range] at hi
      simp only [Function.comp]
      rw [rsiAt_notnull_iff closes window i hw]
      constructor
      · rintro ⟨h1, -⟩
        exact decide_eq_true h1
      · intro h1
        have h1' := of_decide_eq_true h1
        exact ⟨h1', hflat i hi h1'⟩
    rw [List.countP_congr hcongr, countP_range_le]

/-- Counterexample to C6 as stated: on 15 constant closes with
`window = 14`, every trailing window of changes is flat, so `avg_gain` and
`avg_loss` are both `0`, `rs = 0/0 = NaN`, and the pane emits 0 points
rather than the claimed `max(0, 15 - 14) = 1`. -/
theorem claim_C6_counterexample :
    ¬((paneData (List.replicate 15 "t")
        (rsiColumn (List.replicate 15 (5 : ℚ)) 14)).length = max 0 (15 - 14)) := by
  with_unfolding_all decide

/-- Witness for the amended C6 on strictly increasing closes: exactly
`15 - 14 = 1` point is emitted. -/
theorem claim_C6_witness :
    0 < 14 ∧
    (paneData (List.replicate 15 "t")
      (rsiColumn [1,2,3,4,5,6,7,8,9,10,11,12,13,14,15] 14)).length = 15 - 14 :=
  ⟨by decide,
    (claim_C6_amended (List.replicate 15 "t")
      [1,2,3,4,5,6,7,8,9,10,11,12,13,14,15] 14 (by decide) (by decide)
      (by with_unfolding_all decide)).2⟩

/-! ### Williams %R lemmas (claims C4 and C10) -/

theorem foldl_max_init_le : ∀ (l : List ℚ) (a : ℚ), a ≤ l.foldl max a
  | [], a => le_refl a
  | x :: l, a => le_trans (le_max_left a x) (foldl_max_init_le l (max a x))

theorem le_foldl_max_of_mem : ∀ (l : List ℚ) (a x : ℚ), x ∈ l → x ≤ l.foldl max a
  | [], _, _, h => absurd h (List.not_mem_nil _)
  | y :: l, a, x, h => by
      rcases List.mem_cons.mp h with rfl | h'
      · exact le_trans (le_max_right a x) (foldl_max_init_le l (max a x))
      · exact le_foldl_max_of_mem l (max a y) x h'

theorem foldl_min_le_init : ∀ (l : List ℚ) (a : ℚ), l.foldl min a ≤ a
  | [], a => le_refl a
  | x :: l, a => le_trans (foldl_min_le_init l (min a x)) (min_le_left a x)

theorem foldl_min_le_of_mem : ∀ (l : List ℚ) (a x : ℚ), x ∈ l → l.foldl min a ≤ x
  | [], _, _, h => absurd h (List.not_mem_nil _)
  | y :: l, a, x, h => by
      rcases List.mem_cons.mp h with rfl | h'
      · exact le_trans (foldl_min_le_init l (min a x)) (min_le_right a x)
      · exact foldl_min_le_of_mem l (min a y) x h'

theorem rollingMaxAt_spec (xs : List ℚ) (w i : ℕ) (hw : 0 < w) (hwi : w ≤ i + 1) :
    ∃ hh, rollingMaxAt xs w i = some hh ∧
      ∀ j, i + 1 - w ≤ j → j < i + 1 → xs.getD j 0 ≤ hh := by
  rw [rollingMaxAt, if_neg (by omega)]
  cases hm : (List.range' (i + 1 - w) w).map (fun j => xs.getD j 0) with
  | nil =>
      exfalso
      have := congrArg List.length hm
      simp at this
      omega
  | cons a rest =>
      refine ⟨rest.foldl max a, rfl, ?_⟩
      intro j hj1 hj2
      have hjmem : j ∈ List.range' (i + 1 - w) w := by
        rw [List.mem_range'_1]
        omega
      have hv : xs.getD j 0 ∈ (List.range' (i + 1 - w) w).map (fun j => xs.getD j 0) :=
        List.mem_map_of_mem _ hjmem
      rw [hm] at hv
      rcases List.mem_cons.mp hv with h | h
      · rw [h]
        exact foldl_max_init_le rest a
      · exact le_foldl_max_of_mem rest a _ h

theorem rollingMinAt_spec (xs : List ℚ) (w i : ℕ) (hw : 0 < w) (hwi : w ≤ i + 1) :
    ∃ ll, rollingMinAt xs w i = some ll ∧
      ∀ j, i + 1 - w ≤ j → j < i + 1 → ll ≤ xs.getD j 0 := by
  rw [rollingMinAt, if_neg (by omega)]
  cases hm : (List.range' (i + 1 - w) w).map (fun j => xs.getD j 0) with
  | nil =>
      exfalso
      have := congrArg List.length hm
      simp at this
      omega
  | cons a rest =>
      refine ⟨rest.foldl min a, rfl, ?_⟩
      intro j hj1 hj2
      have hjmem : j ∈ List.range' (i + 1 - w) w := by
        rw [List.mem_range'_1]
        omega
      have hv : xs.getD j 0 ∈ (List.range' (i + 1 - w) w).map (fun j => xs.getD j 0) :=
        List.mem_map_of_mem _ hjmem
      rw [hm] at hv
      rcases List.mem_cons.mp hv with h | h
      · rw [h]
        exact foldl_min_le_init rest a
      · exact foldl_min_le_of_mem rest a _ h

theorem williamsAt_of_lt (highs lows closes : List ℚ) (w i : ℕ) (h : i + 1 < w) :
    williamsAt highs lows closes w i = .nan := by
  rw [williamsAt, rollingMaxAt, if_pos h, rollingMinAt, if_pos h]

theorem williamsAt_eval (highs lows closes : List ℚ) (w i : ℕ)
    (hw : 0 < w) (hwi : w ≤ i + 1) :
    ∃ hh ll, rollingMaxAt highs w i = some hh ∧ rollingMinAt lows w i = some ll ∧
      highs.getD i 0 ≤ hh ∧ ll ≤ lows.getD i 0 ∧
      williamsAt highs lows closes w i =
        FloatVal.div (.fin (-100 * (hh - closes.getD i 0))) (.fin (hh - ll)) := by
  obtain ⟨hh, hmax, hub⟩ := rollingMaxAt_spec highs w i hw hwi
  obtain ⟨ll, hmin, hlb⟩ := rollingMinAt_spec lows w i hw hwi
  refine ⟨hh, ll, hmax, hmin, hub i (by omega) (by omega), hlb i (by omega) (by omega), ?_⟩
  rw [williamsAt, hmax, hmin]
  rfl

/-- C10: whenever every bar satisfies `low ≤ close ≤ high`, every defined
(non-`NaN`, in fact finite) value of the `Williams_R` column lies in
`[-100, 0]`. -/
theorem claim_C10 (highs lows closes : List ℚ) (period : ℕ) (hw : 0 < period)
    (hinv : ∀ i, i < closes.length →
      lows.getD i 0 ≤ closes.getD i 0 ∧ closes.getD i 0 ≤ highs.getD i 0) :
    ∀ i, i < closes.length → ∀ v : ℚ,
      (williamsColumn highs lows closes period).getD i .nan = .fin v →
      -100 ≤ v ∧ v ≤ 0 := by
  intro i hi v hv
  rw [williamsColumn, getD_map_range _ _ hi] at hv
  by_cases hwi : period ≤ i + 1
  · obtain ⟨hh, ll, -, -, hub, hlb, heq⟩ :=
      williamsAt_eval highs lows closes period i hw hwi
    rw [heq] at hv
    obtain ⟨h1, h2⟩ := hinv i hi
    set c := closes.getD i 0 with hc
    have hcu : c ≤ hh := le_trans h2 hub
    have hcl : ll ≤ c := le_trans hlb h1
    by_cases hz : hh - ll = 0
    · exfalso
      have hhll : hh = ll := by linarith
      have hch : c = hh := le_antisymm hcu (hhll ▸ hcl)
      have ha : -100 * (hh - c) = 0 := by rw [hch]; ring
      rw [ha] at hv
      simp only [FloatVal.div, if_pos hz] at hv
      norm_num at hv
      exact FloatVal.noConfusion hv
    · simp only [FloatVal.div, if_neg hz] at hv
      cases hv
      have hden : (0 : ℚ) < hh - ll :=
        lt_of_le_of_ne (by linarith) (Ne.symm hz)
      constructor
      · rw [le_div_iff₀ hden]
        linarith
      · rw [div_nonpos_iff]
        exact Or.inr ⟨by linarith, by linarith⟩
  · rw [williamsAt_of_lt highs lows closes period i (by omega)] at hv
    exact absurd hv (by simp)

/-- Witness for C10: two bars with `low ≤ close ≤ high`, `period = 1`. -/
theorem claim_C10_witness :
    0 < 1 ∧
    (∀ i, i < ([1, 2] : List ℚ).length →
      ([0, 1] : List ℚ).getD i 0 ≤ ([1, 2] : List ℚ).getD i 0 ∧
      ([1, 2] : List ℚ).getD i 0 ≤ ([2, 3] : List ℚ).getD i 0) ∧
    (∀ i, i < ([1, 2] : List ℚ).length → ∀ v : ℚ,
      (williamsColumn [2, 3] [0, 1] [1, 2] 1).getD i .nan = .fin v →
      -100 ≤ v ∧ v ≤ 0) :=
  ⟨by decide, by with_unfolding_all decide,
    claim_C10 [2, 3] [0, 1] [1, 2] 1 (by decide) (by with_unfolding_all decide)⟩

/-! ### Claim C4 — undefined points and their filtering -/

theorem paneData_mem_notnull (dates : List String) (col : List FloatVal)
    {r : String × FloatVal} (hr : r ∈ paneData dates col) : r.2.notnull = true :=
  (List.mem_filter.mp hr).2

theorem segmentData_mem (dates : List String) (col : List (Option ℚ)) (N lo hi : ℕ)
    {r : String × ℚ} (hr : r ∈ segmentData dates col N lo hi) :
    ∃ idx, lo ≤ idx ∧ idx < hi ∧ idx < N ∧ col.getD idx none = some r.2 ∧
      r.1 = dates.getD idx "" := by
  obtain ⟨idx, hmem, heq⟩ := List.mem_filterMap.mp hr
  rw [List.mem_range'_1] at hmem
  by_cases hN : idx < N
  · rw [if_pos hN] at heq
    cases hcol : col.getD idx none with
    | none =>
        rw [hcol] at heq
        simp at heq
    | some v =>
        rw [hcol] at heq
        simp only [Option.map_some'] at heq
        obtain rfl := Option.some_injective _ heq
        exact ⟨idx, hmem.1, by omega, hN, hcol, rfl⟩
  · rw [if_neg hN] at heq
    simp at heq

theorem zipWith_vwap_zero (pv cv : List ℚ) (k : ℕ)
    (hk : k < (List.zipWith (fun a b => if b ≠ 0 then some (a / b) else none) pv cv).length)
    (hz : cv.getD k 0 = 0) :
    (List.zipWith (fun a b => if b ≠ 0 then some (a / b) else none) pv cv).getD k none
      = none := by
  rw [List.length_zipWith] at hk
  have hkp : k < pv.length := by omega
  have hkc : k < cv.length := by omega
  rw [List.getD_eq_getElem?_getD, List.getElem?_zipWith,
    List.getElem?_eq_getElem hkp, List.getElem?_eq_getElem hkc]
  have hb : cv[k] = 0 := by
    rw [List.getD_eq_getElem?_getD, List.getElem?_eq_getElem hkc] at hz
    exact hz
  simp [hb]

theorem ewmGo_length (a : ℚ) : ∀ (xs : List ℚ) (prev : ℚ),
    (ewmGo a prev xs).length = xs.length
  | [], _ => rfl
  | _ :: xs, prev => by
      rw [ewmGo]
      simp only [List.length_cons]
      rw [ewmGo_length a xs]

theorem ewmAdjustFalse_length (span : ℕ) (xs : List ℚ) :
    (ewmAdjustFalse span xs).length = xs.length := by
  cases xs with
  | nil => rfl
  | cons x xs =>
      rw [ewmAdjustFalse]
      simp only [List.length_cons]
      rw [ewmGo_length]

theorem macdHistColumn_length (closes : List ℚ) (fast slow signal : ℕ) :
    (macdHistColumn closes fast slow signal).length = closes.length := by
  rw [macdHistColumn]
  simp [List.length_zipWith, ewmAdjustFalse_length]

/-- Counterexample to C4 as stated: with 15 strictly increasing closes and
`window = 14`, the RSI computation at row 14 divides by a zero average loss
(`rs = avg_gain / 0 = +∞`), yet the point is not undefined — it evaluates
to the finite value `100` — and it is emitted by the pane rather than
dropped. -/
theorem claim_C4_counterexample :
    rollingMeanAt (lossAt [1,2,3,4,5,6,7,8,9,10,11,12,13,14,15]) 14 14 = some 0 ∧
    rsiAt [1,2,3,4,5,6,7,8,9,10,11,12,13,14,15] 14 14 = .fin 100 ∧
    ("o", FloatVal.fin 100) ∈ paneData (List.replicate 15 "o")
      (rsiColumn [1,2,3,4,5,6,7,8,9,10,11,12,13,14,15] 14) := by
  with_unfolding_all decide

/-- C4 (amended): per-point failures behave as follows.
RSI: a cell is `NaN` exactly on insufficient history or a `0/0`
(flat-window) division, every emitted record is non-`NaN`, and the
zero-average-loss division with positive average gain yields the finite,
emitted value `100` (the IEEE `+∞` route) instead of an undefined point.
Williams %R: insufficient history and (under `low ≤ close ≤ high`) a flat
high/low range give `NaN`, and every emitted record is non-`NaN`.
AVWAP: a zero cumulative volume gives an undefined cell, and segment
records are only ever built from defined cells.
MACD: every histogram cell is finite, so the intentional zero line aside,
nothing is dropped and nothing undefined is emitted. -/
theorem claim_C4_amended
    (dates : List String) (highs lows closes : List ℚ) (w : ℕ)
    (hw : 0 < w) (hd : dates.length = closes.length)
    (hinv : ∀ i, i < closes.length →
      lows.getD i 0 ≤ closes.getD i 0 ∧ closes.getD i 0 ≤ highs.getD i 0) :
    (∀ i, i < closes.length →
      ((rsiColumn closes w).getD i .nan = .nan ↔
        i < w ∨ (rollingMeanAt (gainAt closes) w i = some 0 ∧
          rollingMeanAt (lossAt closes) w i = some 0))) ∧
    (∀ r ∈ paneData dates (rsiColumn closes w), r.2 ≠ .nan) ∧
    (∀ r ∈ paneData dates (williamsColumn highs lows closes w), r.2 ≠ .nan) ∧
    (∀ i, i < closes.length → w ≤ i →
      rollingMeanAt (lossAt closes) w i = some 0 →
      ∀ g, rollingMeanAt (gainAt closes) w i = some g → 0 < g →
        (rsiColumn closes w).getD i .nan = .fin 100) ∧
    (∀ i, i < closes.length → i + 1 < w →
      (williamsColumn highs lows closes w).getD i .nan = .nan) ∧
    (∀ i, i < closes.length → w ≤ i + 1 → ∀ hh ll,
      rollingMaxAt highs w i = some hh → rollingMinAt lows w i = some ll →
      hh = ll → (williamsColumn highs lows closes w).getD i .nan = .nan) ∧
    (∀ (price volume : List ℚ) (s e k : ℕ),
      k < (anchoredVwap price volume s e).length →
      (cumsum ((volume.drop s).take (e - s))).getD k 0 = 0 →
      (anchoredVwap price volume s e).getD k none = none) ∧
    (∀ (col : List (Option ℚ)) (N lo hi : ℕ) (r : String × ℚ),
      r ∈ segmentData dates col N lo hi →
      ∃ idx, lo ≤ idx ∧ idx < hi ∧ col.getD idx none = some r.2) ∧
    (∀ fast slow signal : ℕ,
      (optPaneData dates ((macdHistColumn closes fast slow signal).map some)).length
        = closes.length) := by
  refine ⟨?_, ?_, ?_, ?_, ?_, ?_, ?_, ?_, ?_⟩
  · intro i hi
    rw [rsiColumn, getD_map_range _ _ hi]
    have hiff := rsiAt_notnull_iff closes w i hw
    constructor
    · intro hnan
      by_contra hcon
      push_neg at hcon
      obtain ⟨hwi, himp⟩ := hcon
      have hnn : (rsiAt closes w i).notnull = true :=
        (rsiAt_notnull_iff closes w i hw).mpr ⟨by omega, fun hc => himp hc.1 hc.2⟩
      rw [hnan] at hnn
      exact absurd hnn (by simp [FloatVal.notnull])
    · rintro (h | ⟨hg, hl⟩)
      · exact rsiAt_of_lt closes w i hw h
      · exact rsiAt_flat closes w i hg hl
  · intro r hr
    have := paneData_mem_notnull dates _ hr
    intro hnan
    rw [hnan] at this
    exact absurd this (by simp [FloatVal.notnull])
  · intro r hr
    have := paneData_mem_notnull dates _ hr
    intro hnan
    rw [hnan] at this
    exact absurd this (by simp [FloatVal.notnull])
  · intro i hi hwi hl g hg hgpos
    rw [rsiColumn, getD_map_range _ _ hi]
    exact rsiAt_zero_loss closes w i hg hgpos hl
  · intro i hi hlt
    rw [williamsColumn, getD_map_range _ _ hi]
    exact williamsAt_of_lt highs lows closes w i hlt
  · intro i hi hwi hh ll hmax hmin hhll
    rw [williamsColumn, getD_map_range _ _ hi]
    obtain ⟨hh', ll', hmax', hmin', hub, hlb, heq⟩ :=
      williamsAt_eval highs lows closes w i hw hwi
    rw [hmax] at hmax'
    rw [hmin] at hmin'
    obtain rfl := Option.some_injective _ hmax'
    obtain rfl := Option.some_injective _ hmin'
    rw [heq]
    obtain ⟨h1, h2⟩ := hinv i hi
    have hch : closes.getD i 0 = hh := le_antisymm (le_trans h2 hub) (by
      rw [hhll]
      exact le_trans hlb h1)
    have ha : -100 * (hh - closes.getD i 0) = 0 := by
      rw [hch]
      ring
    rw [ha]
    have hz : hh - ll = 0 := by
      rw [hhll]
      ring
    simp only [FloatVal.div, if_pos hz]
    norm_num
  · intro price volume s e k hk hz
    exact zipWith_vwap_zero _ _ k hk hz
  · intro col N lo hi r hr
    obtain ⟨idx, h1, h2, -, h4, -⟩ := segmentData_mem dates col N lo hi hr
    exact ⟨idx, h1, h2, h4⟩
  · intro fast slow signal
    rw [optPaneData_length dates _ (by
      rw [List.length_map, macdHistColumn_length]
      exact hd)]
    rw [List.countP_map]
    have : ((fun o : Option ℚ => o.isSome) ∘ some) = fun _ : ℚ => true := rfl
    rw [this]
    rw [List.countP_true, macdHistColumn_length]

/-- Witness for the amended C4 on two bars (`w = 1`): every emitted RSI
record is non-`NaN`. -/
theorem claim_C4_witness :
    0 < 1 ∧
    (∀ r ∈ paneData ["a", "b"] (rsiColumn [1, 2] 1), r.2 ≠ .nan) :=
  ⟨by decide,
    (claim_C4_amended ["a", "b"] [2, 3] [0, 1] [1, 2] 1 (by decide) (by decide)
      (by with_unfolding_all decide)).2.1⟩

/-! ### Claim C5 — the percent-change title suffix -/

/-- C5 is contradicted by the code: on a 1-bar series `iloc[-2]` raises
`IndexError` before any suffix is built, so `pane()` does not return at all
(modelled as `none`) instead of returning a pane with an omitted suffix;
and on a zero previous close the IEEE division yields `+∞` — the suffix
renders as `" (+inf%)"` — instead of being omitted.  For well-formed
inputs the percentage itself is as specified (`+5` and `-5` on the spec's
examples). -/
theorem claim_C5_bug :
    paneTitlePct [100] = none ∧
    paneTitlePct [0, 100] = some FloatVal.pinf ∧
    paneTitlePct [100, 105] = some (.fin 5) ∧
    paneTitlePct [100, 95] = some (.fin (-5)) := by
  with_unfolding_all decide

/-! ### Claim C8 — overlay composition order and marker attachment -/

theorem foldl_append_eq (l : List (List SeriesConfig)) :
    ∀ init : List SeriesConfig,
      l.foldl (fun acc cfgs => acc ++ cfgs) init = init ++ l.flatten := by
  induction l with
  | nil => intro init; simp
  | cons x l ih =>
      intro init
      rw [List.foldl_cons, ih (init ++ x), List.flatten_cons, List.append_assoc]

/-- C8: the composed series list is the base descriptor followed by every
overlay's descriptors flattened in the given order (each overlay's internal
order preserved), and supplied markers are attached to the base descriptor
only — never as an extra descriptor (the length is exactly
`1 + Σ overlay sizes`). -/
theorem claim_C8 (base : SeriesConfig) (overlayConfigs : List (List SeriesConfig))
    (markers : List Marker) :
    paneSeries base overlayConfigs markers =
      (if markers.isEmpty then base else { base with markers := markers })
        :: overlayConfigs.flatten ∧
    (paneSeries base overlayConfigs markers).length
      = 1 + (overlayConfigs.map List.length).sum := by
  have hc : composeSeriesConfigs base overlayConfigs = base :: overlayConfigs.flatten := by
    rw [composeSeriesConfigs, foldl_append_eq]
    rfl
  have hmain : paneSeries base overlayConfigs markers =
      (if markers.isEmpty then base else { base with markers := markers })
        :: overlayConfigs.flatten := by
    rw [paneSeries, hc, attachMarkers]
    by_cases hm : markers.isEmpty
    · rw [if_pos hm, if_pos hm]
    · rw [if_neg hm, if_neg hm]
  refine ⟨hmain, ?_⟩
  rw [hmain]
  simp [List.length_flatten]
  omega

/-! ### Claim C1 — termination of a pivot-high ray -/

/-- Spec-side definition, following the words of the claim: the index of
the first bar after `start` (and before the end of data `N`) whose close
strictly exceeds the pivot price, if any. -/
def specFirstCloseAbove (closes : List ℚ) (price : ℚ) (start N : ℕ) : Option ℕ :=
  (List.range' (start + 1) (N - (start + 1))).find? (fun j => decide (price < closes.getD j 0))

theorem findSome?_if_eq_find? (P : ℕ → Bool) :
    ∀ l : List ℕ, (l.findSome? (fun j => if P j then some j else none)) = l.find? P := by
  intro l
  induction l with
  | nil => rfl
  | cons a l ih =>
      cases hP : P a
      · rw [List.findSome?_cons_of_isNone _ (by simp [hP]), ih,
          List.find?_cons_of_neg _ (by simp [hP])]
      · rw [List.findSome?_cons_of_isSome _ (by simp [hP]),
          List.find?_cons_of_pos _ hP]
        simp [hP]

/-- Core shape of both forward scans in `PivotHighIndicator`: scanning
`range' s len`, a close-above hit at `j` ends at `j`; otherwise a
"confirmation" test `Q` that first fires at index `c` ends at `val c = c`.
The result is the earlier of the first close-above index and `c`. -/
theorem findSome?_scan_min (P Q : ℕ → Bool) (val : ℕ → ℕ) (c : ℕ)
    (hQc : Q c = true) (hQlt : ∀ j, j < c → Q j = false) (hval : val c = c) :
    ∀ (len s : ℕ), s ≤ c → c < s + len →
      ((List.range' s len).findSome?
          (fun j => if P j then some j else if Q j then some (val j) else none))
        = some (min (((List.range' s len).find? P).getD (s + len)) c) := by
  intro len
  induction len with
  | zero =>
      intro s h1 h2
      omega
  | succ n ih =>
      intro s h1 h2
      rw [List.range'_succ]
      cases hP : P s
      · by_cases hsc : s = c
        · subst hsc
          rw [List.findSome?_cons_of_isSome _ (by simp [hP, hQc, hval]),
            List.find?_cons_of_neg _ (by simp [hP])]
          simp only [hP, Bool.false_eq_true, if_false, hQc, if_true, hval]
          congr 1
          cases hfind : (List.range' (s + 1) n).find? P with
          | none => simp
          | some a =>
              have ha := List.mem_range'_1.mp (List.mem_of_find?_eq_some hfind)
              simp
              omega
        · have hlt : s < c := by omega
          rw [List.findSome?_cons_of_isNone _ (by simp [hP, hQlt s hlt]),
            List.find?_cons_of_neg _ (by simp [hP])]
          have harith : s + (n + 1) = s + 1 + n := by omega
          rw [harith]
          exact ih (s + 1) (by omega) (by omega)
      · rw [List.findSome?_cons_of_isSome _ (by simp [hP]),
          List.find?_cons_of_pos _ hP]
        simp only [hP, if_true, Option.getD_some]
        congr 1
        omega

/-- When the confirmation test never fires inside the range (no later
pivot), the scan reduces to the close-above search. -/
theorem findSome?_scan_nofire (P Q : ℕ → Bool) (val : ℕ → ℕ)
    (hQ : ∀ j, Q j = false) :
    ∀ (l : List ℕ),
      (l.findSome? (fun j => if P j then some j else if Q j then some (val j) else none))
        = l.find? P := by
  have hbody : (fun j => if P j then some j else if Q j then some (val j) else none)
      = fun j => if P j then some j else none := by
    funext j
    rw [hQ j]
    simp
  intro l
  rw [hbody]
  exact findSome?_if_eq_find? P l

theorem find?_confirm_head (rest : List ℕ) (hrest : rest.Pairwise (· < ·))
    (right j : ℕ) :
    (rest.find? (fun q => decide (q + right ≤ j))).map (· + right) =
      (match rest.head? with
       | some q => if q + right ≤ j then some (q + right) else none
       | none => none) := by
  cases rest with
  | nil => rfl
  | cons q qs =>
      by_cases hq : q + right ≤ j
      · rw [List.find?_cons_of_pos _ (by simpa using hq)]
        simp [hq]
      · rw [List.find?_cons_of_neg _ (by simpa using hq)]
        have hnone : qs.find? (fun x => decide (x + right ≤ j)) = none := by
          rw [List.find?_eq_none]
          intro x hx
          have := (List.pairwise_cons.mp hrest).1 x hx
          simp
          omega
        rw [hnone]
        simp [hq]

theorem find?_confirmEq_isSome (rest : List ℕ) (right j : ℕ) :
    ((rest.find? (fun q => decide (q + right = j))).isSome = true) ↔
      ∃ q ∈ rest, q + right = j := by
  rw [List.find?_isSome]
  simp

/-- Characterization of `rayEndNormal` for a sorted, bounded list of later
pivots: it is the earlier of (a) the first strictly-greater close after the
pivot and (b) the next pivot's confirmation index, falling back to `N`. -/
theorem rayEndNormal_eq_min (closes : List ℚ) (price : ℚ) (rest : List ℕ)
    (right N p : ℕ) (hrest : rest.Pairwise (· < ·))
    (hlb : ∀ q ∈ rest, p < q) (hub : ∀ q ∈ rest, q + right < N) :
    rayEndNormal closes price rest right N p =
      min ((specFirstCloseAbove closes price p N).getD N)
          ((rest.head?.map (· + right)).getD N) := by
  rw [rayEndNormal, specFirstCloseAbove]
  cases rest with
  | nil =>
      have hbody : (fun j => if price < closes.getD j 0 then some j
          else (([] : List ℕ).find? (fun q => decide (q + right ≤ j))).map
            (fun q => q + right))
          = fun j => if decide (price < closes.getD j 0) = true then some j
              else none := by
        funext j
        by_cases hP : price < closes.getD j 0 <;> simp [hP, List.find?]
      rw [hbody, findSome?_if_eq_find? (fun j => decide (price < closes.getD j 0))]
      cases hfind : (List.range' (p + 1) (N - (p + 1))).find?
          (fun j => decide (price < closes.getD j 0)) with
      | none => simp
      | some a =>
          have ha := List.mem_range'_1.mp (List.mem_of_find?_eq_some hfind)
          simp
          omega
  | cons q qs =>
      have hc1 : p + 1 ≤ q + right := by
        have := hlb q (List.mem_cons_self q qs)
        omega
      have hc2 : q + right < N := hub q (List.mem_cons_self q qs)
      have hbody : (fun j => if price < closes.getD j 0 then some j
          else ((q :: qs).find? (fun x => decide (x + right ≤ j))).map
            (fun x => x + right))
          = fun j => if decide (price < closes.getD j 0) = true then some j
              else if decide (q + right ≤ j) = true then some (q + right) else none := by
        funext j
        rw [find?_confirm_head (q :: qs) hrest right j]
        by_cases hP : price < closes.getD j 0
        · simp [hP]
        · by_cases hj : q + right ≤ j <;> simp [hP, hj]
      rw [hbody, findSome?_scan_min (fun j => decide (price < closes.getD j 0))
        (fun j => decide (q + right ≤ j)) (fun _ => q + right) (q + right)
        (by simp) (fun j hj => by simp; omega) rfl (N - (p + 1)) (p + 1)
        (by omega) (by omega)]
      have harith : p + 1 + (N - (p + 1)) = N := by omega
      rw [harith]
      rfl

/-- Characterization of `rayEndRealistic`: the same earliest-wins rule, with
the close-above search starting after the confirmation bar
`pivot + right`. -/
theorem rayEndRealistic_eq_min (closes : List ℚ) (price : ℚ) (rest : List ℕ)
    (right N p : ℕ) (hrest : rest.Pairwise (· < ·))
    (hlb : ∀ q ∈ rest, p < q) (hub : ∀ q ∈ rest, q + right < N) :
    rayEndRealistic closes price rest right N p =
      min ((specFirstCloseAbove closes price (p + right) N).getD N)
          ((rest.head?.map (· + right)).getD N) := by
  rw [rayEndRealistic, specFirstCloseAbove]
  cases rest with
  | nil =>
      have hbody : (fun j => if price < closes.getD j 0 then some j
          else if (([] : List ℕ).find? (fun q => decide (q + right = j))).isSome
            then some j else none)
          = fun j => if decide (price < closes.getD j 0) = true then some j else none := by
        funext j
        by_cases hP : price < closes.getD j 0 <;> simp [hP, List.find?]
      rw [hbody, findSome?_if_eq_find? (fun j => decide (price < closes.getD j 0))]
      cases hfind : (List.range' (p + right + 1) (N - (p + right + 1))).find?
          (fun j => decide (price < closes.getD j 0)) with
      | none => simp
      | some a =>
          have ha := List.mem_range'_1.mp (List.mem_of_find?_eq_some hfind)
          simp
          omega
  | cons q qs =>
      have hc1 : p + right + 1 ≤ q + right := by
        have := hlb q (List.mem_cons_self q qs)
        omega
      have hc2 : q + right < N := hub q (List.mem_cons_self q qs)
      have hQlt : ∀ j, j < q + right →
          (((q :: qs).find? (fun x => decide (x + right = j))).isSome) = false := by
        intro j hj
        rw [Bool.eq_false_iff]
        intro hsome
        obtain ⟨x, hx, hxj⟩ := (find?_confirmEq_isSome (q :: qs) right j).mp hsome
        rcases List.mem_cons.mp hx with rfl | hx'
        · omega
        · have := (List.pairwise_cons.mp hrest).1 x hx'
          omega
      have hQc : (((q :: qs).find? (fun x => decide (x + right = q + right))).isSome)
          = true := by
        rw [find?_confirmEq_isSome]
        exact ⟨q, List.mem_cons_self q qs, rfl⟩
      have hbody : (fun j => if price < closes.getD j 0 then some j
          else if ((q :: qs).find? (fun x => decide (x + right = j))).isSome
            then some j else none)
          = fun j => if decide (price < closes.getD j 0) = true then some j
              else if ((q :: qs).find? (fun x => decide (x + right = j))).isSome = true
                then some j else none := by
        funext j
        by_cases hP : price < closes.getD j 0 <;> simp [hP]
      rw [hbody, findSome?_scan_min (fun j => decide (price < closes.getD j 0))
        (fun j => ((q :: qs).find? (fun x => decide (x + right = j))).isSome)
        (fun j => j) (q + right) hQc hQlt rfl (N - (p + right + 1)) (p + right + 1)
        (by omega) (by omega)]
      have harith : p + right + 1 + (N - (p + right + 1)) = N := by omega
      rw [harith]
      rfl

theorem filterMap_eq_map_of_all {α β : Type} (f : α → Option β) (g : α → β) :
    ∀ l : List α, (∀ x ∈ l, f x = some (g x)) → l.filterMap f = l.map g := by
  intro l
  induction l with
  | nil => intro _; rfl
  | cons a l ih =>
      intro h
      rw [List.filterMap_cons, h a (List.mem_cons_self a l), List.map_cons,
        ih (fun x hx => h x (List.mem_cons_of_mem a hx))]

theorem constSegData_full (dates : List String) (N lo hi : ℕ) (price : ℚ)
    (hhi : hi ≤ N) :
    constSegData dates N lo hi price
      = (List.range' lo (hi - lo)).map (fun idx => (dates.getD idx "", price)) := by
  rw [constSegData]
  apply filterMap_eq_map_of_all
  intro idx hidx
  have := List.mem_range'_1.mp hidx
  rw [if_pos (by omega)]

/-- C1: for the `i`-th detected pivot-high `p` (later pivots `rest`), the
drawn ray terminates, in both modes, at the earlier of (a) the first
subsequent bar whose close strictly exceeds the pivot price (the scan
starting after the pivot in normal mode and after the confirmation bar in
realistic mode) and (b) the next pivot-high's confirmation index
`next + right`, extending to the last bar when neither condition fires;
and in normal mode the emitted dashed-plus-solid data is exactly one
constant-price record per bar of `[p, end)`. -/
theorem claim_C1 (dates : List String) (highs closes : List ℚ)
    (left right i p : ℕ) (rest : List ℕ)
    (hsplit : (findPivots highs left right PivotKind.high).drop i = p :: rest) :
    (rayEndNormal closes (highs.getD p 0) rest right highs.length p =
       min ((specFirstCloseAbove closes (highs.getD p 0) p highs.length).getD
              highs.length)
           ((rest.head?.map (· + right)).getD highs.length)) ∧
    (rayEndRealistic closes (highs.getD p 0) rest right highs.length p =
       min ((specFirstCloseAbove closes (highs.getD p 0) (p + right)
              highs.length).getD highs.length)
           ((rest.head?.map (· + right)).getD highs.length)) ∧
    (constSegData dates highs.length p
        (min (p + right) (rayEndNormal closes (highs.getD p 0) rest right highs.length p))
        (highs.getD p 0) ++
      constSegData dates highs.length
        (min (p + right) (rayEndNormal closes (highs.getD p 0) rest right highs.length p))
        (rayEndNormal closes (highs.getD p 0) rest right highs.length p) (highs.getD p 0)
      = (List.range' p
          (rayEndNormal closes (highs.getD p 0) rest right highs.length p - p)).map
          (fun idx => (dates.getD idx "", highs.getD p 0))) := by
  have hpairs : (p :: rest).Pairwise (· < ·) := by
    rw [← hsplit]
    exact (findPivots_sorted highs left right .high).drop
  have hrest : rest.Pairwise (· < ·) := (List.pairwise_cons.mp hpairs).2
  have hlb : ∀ q ∈ rest, p < q := (List.pairwise_cons.mp hpairs).1
  have hmem : ∀ q ∈ (p :: rest), q ∈ findPivots highs left right PivotKind.high := by
    intro q hq
    rw [← hsplit] at hq
    exact List.drop_subset i _ hq
  have hub : ∀ q ∈ rest, q + right < highs.length := fun q hq =>
    (findPivots_bounds (hmem q (List.mem_cons_of_mem p hq))).2
  have hpN : p + right < highs.length :=
    (findPivots_bounds (hmem p (List.mem_cons_self p rest))).2
  have h1 := rayEndNormal_eq_min closes (highs.getD p 0) rest right highs.length p
    hrest hlb hub
  have h2 := rayEndRealistic_eq_min closes (highs.getD p 0) rest right highs.length p
    hrest hlb hub
  refine ⟨h1, h2, ?_⟩
  set E := rayEndNormal closes (highs.getD p 0) rest right highs.length p with hE
  have hEN : E ≤ highs.length := by
    rw [h1]
    have : (specFirstCloseAbove closes (highs.getD p 0) p highs.length).getD
        highs.length ≤ highs.length := by
      rw [specFirstCloseAbove]
      cases hfind : (List.range' (p + 1) (highs.length - (p + 1))).find?
          (fun j => decide (highs.getD p 0 < closes.getD j 0)) with
      | none => simp
      | some a =>
          have ha := List.mem_range'_1.mp (List.mem_of_find?_eq_some hfind)
          simp
          omega
    exact le_trans (min_le_left _ _) this
  have hpE : p < E := by
    rw [h1]
    have hA : p < (specFirstCloseAbove closes (highs.getD p 0) p highs.length).getD
        highs.length := by
      rw [specFirstCloseAbove]
      cases hfind : (List.range' (p + 1) (highs.length - (p + 1))).find?
          (fun j => decide (highs.getD p 0 < closes.getD j 0)) with
      | none =>
          simp
          omega
      | some a =>
          have ha := List.mem_range'_1.mp (List.mem_of_find?_eq_some hfind)
          simp
          omega
    have hC : p < (rest.head?.map (· + right)).getD highs.length := by
      cases rest with
      | nil =>
          simp
          omega
      | cons q qs =>
          have := hlb q (List.mem_cons_self q qs)
          simp
          omega
    exact lt_min hA hC
  rw [constSegData_full dates highs.length p (min (p + right) E) (highs.getD p 0)
      (le_trans (min_le_right _ _) hEN),
    constSegData_full dates highs.length (min (p + right) E) E (highs.getD p 0) hEN,
    ← List.map_append]
  congr 1
  have hm : p + (min (p + right) E - p) = min (p + right) E := by omega
  have key := List.range'_append_1 p (min (p + right) E - p) (E - min (p + right) E)
  rw [hm] at key
  rw [key]
  congr 1
  omega

/-- Witness for C1: highs `[1,5,1,9,1,3,1]` with strengths `(1,1)` give
pivots `[1,3,5]`; for the first pivot (`p = 1`, later pivots `[3,5]`) and
never-exceeding closes, the normal-mode ray end is the next confirmation
`3 + 1 = 4`. -/
theorem claim_C1_witness :
    ((findPivots [1,5,1,9,1,3,1] 1 1 PivotKind.high).drop 0 = 1 :: [3, 5]) ∧
    (rayEndNormal [0,0,0,0,0,0,0] (([1,5,1,9,1,3,1] : List ℚ).getD 1 0) [3, 5] 1
        ([1,5,1,9,1,3,1] : List ℚ).length 1 =
      min ((specFirstCloseAbove [0,0,0,0,0,0,0] (([1,5,1,9,1,3,1] : List ℚ).getD 1 0) 1
            ([1,5,1,9,1,3,1] : List ℚ).length).getD ([1,5,1,9,1,3,1] : List ℚ).length)
          ((([3, 5] : List ℕ).head?.map (· + 1)).getD
            ([1,5,1,9,1,3,1] : List ℚ).length)) :=
  ⟨by with_unfolding_all decide,
    (claim_C1 ["a","b","c","d","e","f","g"] [1,5,1,9,1,3,1] [0,0,0,0,0,0,0]
      1 1 0 1 [3, 5] (by with_unfolding_all decide)).1⟩

/-! ### Claim C2 — AVWAP segment boundaries and coverage -/

theorem length_cumsumFrom : ∀ (xs : List ℚ) (acc : ℚ),
    (cumsumFrom acc xs).length = xs.length
  | [], _ => rfl
  | x :: xs, acc => by
      rw [cumsumFrom]
      simp only [List.length_cons]
      rw [length_cumsumFrom xs]

theorem length_cumsum (xs : List ℚ) : (cumsum xs).length = xs.length :=
  length_cumsumFrom xs 0

theorem cumsumFrom_pos : ∀ (xs : List ℚ) (acc : ℚ), 0 ≤ acc →
    (∀ x ∈ xs, 0 < x) → ∀ k, k < xs.length → 0 < (cumsumFrom acc xs).getD k 0
  | [], _, _, _, k, hk => by simp at hk
  | x :: xs, acc, hacc, hpos, 0, _ => by
      rw [cumsumFrom, List.getD_cons_zero]
      have := hpos x (List.mem_cons_self x xs)
      linarith
  | x :: xs, acc, hacc, hpos, k + 1, hk => by
      rw [cumsumFrom, List.getD_cons_succ]
      exact cumsumFrom_pos xs (acc + x)
        (by have := hpos x (List.mem_cons_self x xs); linarith)
        (fun y hy => hpos y (List.mem_cons_of_mem x hy)) k (by simpa using hk)

theorem cumsum_pos (xs : List ℚ) (hpos : ∀ x ∈ xs, 0 < x) (k : ℕ)
    (hk : k < xs.length) : 0 < (cumsum xs).getD k 0 :=
  cumsumFrom_pos xs 0 le_rfl hpos k hk

theorem zipWith_vwap_some (pv cv : List ℚ) (k : ℕ)
    (hk : k < (List.zipWith (fun a b => if b ≠ 0 then some (a / b) else none) pv cv).length)
    (hz : cv.getD k 0 ≠ 0) :
    (List.zipWith (fun a b => if b ≠ 0 then some (a / b) else none) pv cv).getD k none
      = some (pv.getD k 0 / cv.getD k 0) := by
  rw [List.length_zipWith] at hk
  have hkp : k < pv.length := by omega
  have hkc : k < cv.length := by omega
  rw [List.getD_eq_getElem?_getD, List.getElem?_zipWith,
    List.getElem?_eq_getElem hkp, List.getElem?_eq_getElem hkc]
  have hb : cv.getD k 0 = cv[k] := by
    rw [List.getD_eq_getElem?_getD, List.getElem?_eq_getElem hkc]
    rfl
  have ha : pv.getD k 0 = pv[k] := by
    rw [List.getD_eq_getElem?_getD, List.getElem?_eq_getElem hkp]
    rfl
  rw [hb] at hz
  rw [ha, hb]
  simp [hz]

theorem length_anchoredVwap (price volume : List ℚ) (s e : ℕ)
    (hsv : volume.length = price.length) (he : e ≤ price.length) :
    (anchoredVwap price volume s e).length = e - s := by
  rw [anchoredVwap]
  simp only [List.length_zipWith, length_cumsum, List.length_take, List.length_drop, hsv]
  omega

theorem anchoredVwap_isSome (price volume : List ℚ) (s e : ℕ)
    (hvol : ∀ v ∈ volume, 0 < v) (k : ℕ)
    (hk : k < (anchoredVwap price volume s e).length) :
    (anchoredVwap price volume s e).getD k none ≠ none := by
  have hkc : k < ((volume.drop s).take (e - s)).length := by
    rw [anchoredVwap] at hk
    simp only [List.length_zipWith, length_cumsum] at hk
    omega
  have hcv : 0 < (cumsum ((volume.drop s).take (e - s))).getD k 0 := by
    apply cumsum_pos
    · intro x hx
      exact hvol x (List.mem_of_mem_drop (List.mem_of_mem_take hx))
    · exact hkc
  rw [anchoredVwap]
  rw [anchoredVwap] at hk
  rw [zipWith_vwap_some _ _ k hk (by exact ne_of_gt hcv)]
  simp

theorem length_writeSlice : ∀ (col : List (Option ℚ)) (lo : ℕ) (vals : List (Option ℚ)),
    (writeSlice col lo vals).length = col.length
  | [], _, _ => rfl
  | x :: xs, lo + 1, vals => by
      rw [writeSlice]
      simp only [List.length_cons]
      rw [length_writeSlice xs lo vals]
  | x :: xs, 0, [] => rfl
  | x :: xs, 0, v :: vs => by
      rw [writeSlice]
      simp only [List.length_cons]
      rw [length_writeSlice xs 0 vs]

theorem writeSlice_getD : ∀ (col : List (Option ℚ)) (lo : ℕ) (vals : List (Option ℚ))
    (j : ℕ),
    (writeSlice col lo vals).getD j none =
      if lo ≤ j ∧ j < lo + vals.length ∧ j < col.length
      then vals.getD (j - lo) none else col.getD j none
  | [], lo, vals, j => by
      have hz : ¬(lo ≤ j ∧ j < lo + vals.length ∧ j < ([] : List (Option ℚ)).length) := by
        simp
      rw [if_neg hz]
      rfl
  | x :: xs, lo + 1, vals, j => by
      rw [writeSlice]
      cases j with
      | zero =>
          rw [List.getD_cons_zero, if_neg (by simp), List.getD_cons_zero]
      | succ j' =>
          rw [List.getD_cons_succ, writeSlice_getD xs lo vals j', List.getD_cons_succ]
          by_cases h : lo ≤ j' ∧ j' < lo + vals.length ∧ j' < xs.length
          · rw [if_pos h, if_pos (by simp at h ⊢; omega)]
            have harith : j' + 1 - (lo + 1) = j' - lo := by omega
            rw [harith]
          · rw [if_neg h, if_neg (by simp at h ⊢; omega)]
  | x :: xs, 0, [], j => by
      rw [writeSlice, if_neg (by simp)]
  | x :: xs, 0, v :: vs, j => by
      rw [writeSlice]
      cases j with
      | zero => simp
      | succ j' =>
          rw [List.getD_cons_succ, writeSlice_getD xs 0 vs j', List.getD_cons_succ]
          by_cases h : 0 ≤ j' ∧ j' < 0 + vs.length ∧ j' < xs.length
          · rw [if_pos h, if_pos (by simp at h ⊢; omega)]
            simp
          · rw [if_neg h, if_neg (by simp at h ⊢; omega)]

theorem avwapFill_cons (price volume : List ℚ) (right : ℕ) (realistic : Bool)
    (p : ℕ) (rest : List ℕ) (col : List (Option ℚ)) :
    avwapFill price volume right realistic (p :: rest) col =
      avwapFill price volume right realistic rest
        (writeSlice col (if realistic then p + right else p)
          ((anchoredVwap price volume p
              (if realistic then price.length
               else (match rest with | [] => price.length | q :: _ => q))).drop
            ((if realistic then p + right else p) - p))) := rfl

theorem length_avwapFill (price volume : List ℚ) (right : ℕ) (realistic : Bool) :
    ∀ (pivots : List ℕ) (col : List (Option ℚ)),
      (avwapFill price volume right realistic pivots col).length = col.length
  | [], col => rfl
  | p :: rest, col => by
      rw [avwapFill_cons, length_avwapFill price volume right realistic rest,
        length_writeSlice]

theorem avwapFill_preserve (price volume : List ℚ) (right : ℕ) (realistic : Bool) :
    ∀ (pivots : List ℕ) (col : List (Option ℚ)) (idx : ℕ),
      (∀ q ∈ pivots, idx < (if realistic then q + right else q)) →
      (avwapFill price volume right realistic pivots col).getD idx none
        = col.getD idx none
  | [], col, idx, _ => rfl
  | p :: rest, col, idx, hidx => by
      rw [avwapFill_cons, avwapFill_preserve price volume right realistic rest _ idx
        (fun q hq => hidx q (List.mem_cons_of_mem p hq)), writeSlice_getD]
      have hp := hidx p (List.mem_cons_self p rest)
      cases realistic with
      | false =>
          simp only [Bool.false_eq_true, if_false] at hp ⊢
          rw [if_neg (by omega)]
      | true =>
          simp only [if_true] at hp ⊢
          rw [if_neg (by omega)]

/-- Segment end used by `AVWAPIndicator` in normal mode: the next same-kind
pivot's index, or the end of data for the last pivot. -/
def segEndNormal (rest : List ℕ) (N : ℕ) : ℕ :=
  match rest with
  | [] => N
  | q :: _ => q

/-- Display end used by `AVWAPIndicator.get_series_configs` in realistic
mode: the next same-kind pivot's confirmation index, or the end of data. -/
def segEndReal (rest : List ℕ) (right N : ℕ) : ℕ :=
  match rest with
  | [] => N
  | q :: _ => q + right

theorem segEndNormal_def (rest : List ℕ) (N : ℕ) :
    (match rest with | [] => N | q :: _ => q) = segEndNormal rest N := rfl

theorem getD_drop_opt (l : List (Option ℚ)) (n m : ℕ) :
    (l.drop n).getD m none = l.getD (n + m) none := by
  rw [List.getD_eq_getElem?_getD, List.getD_eq_getElem?_getD, List.getElem?_drop]

/-- Value of the normal-mode AVWAP column inside the segment of the `k`-th
pivot: the anchored VWAP of that segment, shifted to the pivot. -/
theorem avwapFill_normal_spec (price volume : List ℚ) (right : ℕ)
    (hsv : volume.length = price.length) :
    ∀ (pivots : List ℕ) (col : List (Option ℚ)),
      pivots.Pairwise (· < ·) →
      (∀ q ∈ pivots, q < price.length) →
      col.length = price.length →
      ∀ (k p : ℕ) (rest : List ℕ), pivots.drop k = p :: rest →
        ∀ idx, p ≤ idx → idx < segEndNormal rest price.length →
          (avwapFill price volume right false pivots col).getD idx none
            = (anchoredVwap price volume p (segEndNormal rest price.length)).getD
                (idx - p) none
  | [], col, _, _, _, k, p, rest, hsplit, idx, _, _ => by
      rw [List.drop_nil] at hsplit
      exact absurd hsplit (by simp)
  | p0 :: ps, col, hpairs, hbnd, hlen, k, p, rest, hsplit, idx, hidx1, hidx2 => by
      cases k with
      | zero =>
          rw [List.drop_zero] at hsplit
          injection hsplit with hp hrest
          subst p0
          subst ps
          rw [avwapFill_cons]
          have hEle : segEndNormal rest price.length ≤ price.length := by
            cases rest with
            | nil => exact le_rfl
            | cons q qs =>
                exact le_of_lt (hbnd q (List.mem_cons_of_mem p (List.mem_cons_self q qs)))
          have hpres : ∀ q ∈ rest, idx < (if (false : Bool) then q + right else q) := by
            intro q hq
            simp only [Bool.false_eq_true, if_false]
            cases rest with
            | nil => exact absurd hq (List.not_mem_nil q)
            | cons q0 qs =>
                rcases List.mem_cons.mp hq with rfl | hq'
                · exact lt_of_lt_of_le hidx2 le_rfl
                · have hlt := (List.pairwise_cons.mp (List.pairwise_cons.mp hpairs).2).1 q hq'
                  exact lt_trans hidx2 hlt
          rw [avwapFill_preserve price volume right false rest _ idx hpres,
            writeSlice_getD]
          simp only [Bool.false_eq_true, if_false, Nat.sub_self, List.drop_zero,
            segEndNormal_def]
          have hvlen : (anchoredVwap price volume p (segEndNormal rest price.length)).length
              = segEndNormal rest price.length - p :=
            length_anchoredVwap price volume p _ hsv hEle
          rw [hvlen, if_pos ⟨hidx1, by omega, by omega⟩]
      | succ k' =>
          rw [List.drop_succ_cons] at hsplit
          rw [avwapFill_cons]
          exact avwapFill_normal_spec price volume right hsv ps _
            (List.pairwise_cons.mp hpairs).2
            (fun q hq => hbnd q (List.mem_cons_of_mem p0 hq))
            (by rw [length_writeSlice]; exact hlen)
            k' p rest hsplit idx hidx1 hidx2

/-- Value of the realistic-mode AVWAP column between the confirmation bars
of the `k`-th and `(k+1)`-th pivots: the VWAP anchored at the `k`-th pivot
and accumulated to the end of data (later pivots overwrite only from their
own confirmation bar onwards). -/
theorem avwapFill_realistic_spec (price volume : List ℚ) (right : ℕ)
    (hsv : volume.length = price.length) :
    ∀ (pivots : List ℕ) (col : List (Option ℚ)),
      pivots.Pairwise (· < ·) →
      (∀ q ∈ pivots, q + right < price.length) →
      col.length = price.length →
      ∀ (k p : ℕ) (rest : List ℕ), pivots.drop k = p :: rest →
        ∀ idx, p + right ≤ idx → idx < segEndReal rest right price.length →
          (avwapFill price volume right true pivots col).getD idx none
            = (anchoredVwap price volume p price.length).getD (idx - p) none
  | [], col, _, _, _, k, p, rest, hsplit, idx, _, _ => by
      rw [List.drop_nil] at hsplit
      exact absurd hsplit (by simp)
  | p0 :: ps, col, hpairs, hbnd, hlen, k, p, rest, hsplit, idx, hidx1, hidx2 => by
      cases k with
      | zero =>
          rw [List.drop_zero] at hsplit
          injection hsplit with hp hrest
          subst p0
          subst ps
          rw [avwapFill_cons]
          have hpN : p + right < price.length := hbnd p (List.mem_cons_self p rest)
          have hEle : segEndReal rest right price.length ≤ price.length := by
            cases rest with
            | nil => exact le_rfl
            | cons q qs =>
                exact le_of_lt (hbnd q (List.mem_cons_of_mem p (List.mem_cons_self q qs)))
          have hpres : ∀ q ∈ rest, idx < (if (true : Bool) then q + right else q) := by
            intro q hq
            simp only [if_true]
            cases rest with
            | nil => exact absurd hq (List.not_mem_nil q)
            | cons q0 qs =>
                rcases List.mem_cons.mp hq with rfl | hq'
                · exact hidx2
                · have hlt := (List.pairwise_cons.mp (List.pairwise_cons.mp hpairs).2).1 q hq'
                  have hE0 : segEndReal (q0 :: qs) right price.length = q0 + right := rfl
                  omega
          rw [avwapFill_preserve price volume right true rest _ idx hpres,
            writeSlice_getD]
          simp only [if_true] at *
          have hvlen : (anchoredVwap price volume p price.length).length
              = price.length - p :=
            length_anchoredVwap price volume p _ hsv le_rfl
          have harg : p + right - p = right := by omega
          rw [harg]
          rw [if_pos (by
            refine ⟨hidx1, ?_, ?_⟩
            · rw [List.length_drop, hvlen]
              omega
            · rw [hlen]
              omega)]
          rw [getD_drop_opt]
          have harg2 : right + (idx - (p + right)) = idx - p := by omega
          rw [harg2]
      | succ k' =>
          rw [List.drop_succ_cons] at hsplit
          rw [avwapFill_cons]
          exact avwapFill_realistic_spec price volume right hsv ps _
            (List.pairwise_cons.mp hpairs).2
            (fun q hq => hbnd q (List.mem_cons_of_mem p0 hq))
            (by rw [length_writeSlice]; exact hlen)
            k' p rest hsplit idx hidx1 hidx2

theorem segmentData_full (dates : List String) (col : List (Option ℚ)) (N lo hi : ℕ)
    (hhi : hi ≤ N)
    (hdef : ∀ idx, lo ≤ idx → idx < hi → (col.getD idx none).isSome = true) :
    segmentData dates col N lo hi
      = (List.range' lo (hi - lo)).map
          (fun idx => (dates.getD idx "", (col.getD idx none).getD 0)) := by
  rw [segmentData]
  apply filterMap_eq_map_of_all
  intro idx hidx
  have hm := List.mem_range'_1.mp hidx
  rw [if_pos (by omega)]
  cases hcol : col.getD idx none with
  | none =>
      have := hdef idx (by omega) (by omega)
      rw [hcol] at this
      simp at this
  | some v => simp [hcol]

/-- C2: for the `k`-th same-kind pivot `p` (later same-kind pivots `rest`)
detected with strengths `(left, right)` over an all-positive-volume series,
the anchored segment runs from `p` to the next same-kind pivot (exclusive),
or to the end of data for the last pivot (`segEndNormal`): in normal mode
the column is defined on exactly that range and the drawn points cover it —
the first `right` bars as the dashed sub-series, the remainder as the solid
sub-series; in realistic mode nothing is drawn before `p + right` and the
drawn points start exactly at `p + right` (running to the next
confirmation, `segEndReal`). -/
theorem claim_C2 (dates : List String) (price volume : List ℚ)
    (left right k p : ℕ) (rest : List ℕ) (kind : PivotKind)
    (hsv : volume.length = price.length)
    (hvol : ∀ v ∈ volume, 0 < v)
    (hsplit : (findPivots price left right kind).drop k = p :: rest) :
    (∀ idx, p ≤ idx → idx < segEndNormal rest price.length →
      ((avwapColumn price volume (findPivots price left right kind) right false).getD
          idx none).isSome = true) ∧
    segmentData dates
        (avwapColumn price volume (findPivots price left right kind) right false)
        price.length p (min (p + right) (segEndNormal rest price.length))
      = (List.range' p (min (p + right) (segEndNormal rest price.length) - p)).map
          (fun idx => (dates.getD idx "",
            ((avwapColumn price volume (findPivots price left right kind) right
                false).getD idx none).getD 0)) ∧
    segmentData dates
        (avwapColumn price volume (findPivots price left right kind) right false)
        price.length (p + right) (segEndNormal rest price.length)
      = (List.range' (p + right) (segEndNormal rest price.length - (p + right))).map
          (fun idx => (dates.getD idx "",
            ((avwapColumn price volume (findPivots price left right kind) right
                false).getD idx none).getD 0)) ∧
    (∀ idx, p + right ≤ idx → idx < segEndReal rest right price.length →
      ((avwapColumn price volume (findPivots price left right kind) right true).getD
          idx none).isSome = true) ∧
    segmentData dates
        (avwapColumn price volume (findPivots price left right kind) right true)
        price.length (p + right) (segEndReal rest right price.length)
      = (List.range' (p + right) (segEndReal rest right price.length - (p + right))).map
          (fun idx => (dates.getD idx "",
            ((avwapColumn price volume (findPivots price left right kind) right
                true).getD idx none).getD 0)) := by
  have hpairs := findPivots_sorted price left right kind
  have hmem : ∀ q ∈ (p :: rest), q ∈ findPivots price left right kind := by
    intro q hq
    rw [← hsplit] at hq
    exact List.drop_subset k _ hq
  have hbndH : ∀ q ∈ findPivots price left right kind, q + right < price.length :=
    fun q hq => (findPivots_bounds hq).2
  have hbnd1 : ∀ q ∈ findPivots price left right kind, q < price.length := by
    intro q hq
    have := hbndH q hq
    omega
  have hpN : p + right < price.length := hbndH p (hmem p (List.mem_cons_self p rest))
  have hEleN : segEndNormal rest price.length ≤ price.length := by
    cases rest with
    | nil => exact le_rfl
    | cons q qs =>
        have := hbnd1 q (hmem q (List.mem_cons_of_mem p (List.mem_cons_self q qs)))
        exact le_of_lt this
  have hEleR : segEndReal rest right price.length ≤ price.length := by
    cases rest with
    | nil => exact le_rfl
    | cons q qs =>
        have := hbndH q (hmem q (List.mem_cons_of_mem p (List.mem_cons_self q qs)))
        exact le_of_lt this
  have hlenrep : (List.replicate price.length (none : Option ℚ)).length
      = price.length := List.length_replicate _ _
  have hvalN : ∀ idx, p ≤ idx → idx < segEndNormal rest price.length →
      (avwapColumn price volume (findPivots price left right kind) right false).getD
        idx none
      = (anchoredVwap price volume p (segEndNormal rest price.length)).getD
          (idx - p) none := by
    intro idx h1 h2
    exact avwapFill_normal_spec price volume right hsv _ _ hpairs hbnd1 hlenrep
      k p rest hsplit idx h1 h2
  have hvalR : ∀ idx, p + right ≤ idx → idx < segEndReal rest right price.length →
      (avwapColumn price volume (findPivots price left right kind) right true).getD
        idx none
      = (anchoredVwap price volume p price.length).getD (idx - p) none := by
    intro idx h1 h2
    exact avwapFill_realistic_spec price volume right hsv _ _ hpairs hbndH hlenrep
      k p rest hsplit idx h1 h2
  have hsomeN : ∀ idx, p ≤ idx → idx < segEndNormal rest price.length →
      ((avwapColumn price volume (findPivots price left right kind) right false).getD
          idx none).isSome = true := by
    intro idx h1 h2
    rw [hvalN idx h1 h2]
    rw [← Option.ne_none_iff_isSome]
    apply anchoredVwap_isSome price volume p _ hvol
    rw [length_anchoredVwap price volume p _ hsv hEleN]
    omega
  have hsomeR : ∀ idx, p + right ≤ idx → idx < segEndReal rest right price.length →
      ((avwapColumn price volume (findPivots price left right kind) right true).getD
          idx none).isSome = true := by
    intro idx h1 h2
    rw [hvalR idx h1 h2]
    rw [← Option.ne_none_iff_isSome]
    apply anchoredVwap_isSome price volume p _ hvol
    rw [length_anchoredVwap price volume p _ hsv le_rfl]
    omega
  refine ⟨hsomeN, ?_, ?_, hsomeR, ?_⟩
  · exact segmentData_full dates _ price.length p _
      (le_trans (min_le_right _ _) hEleN)
      (fun idx h1 h2 => hsomeN idx h1 (lt_of_lt_of_le h2 (min_le_right _ _)))
  · exact segmentData_full dates _ price.length (p + right) _ hEleN
      (fun idx h1 h2 => hsomeN idx (by omega) h2)
  · exact segmentData_full dates _ price.length (p + right) _ hEleR hsomeR

/-- Counterexample to C2 as stated: with one detected pivot-high at index 3
(strengths `(3,3)`, 7 bars) and all volumes zero, every anchored-VWAP cell
is `NaN` (zero cumulative volume), so the normal-mode dashed sub-series is
empty instead of covering the three bars `[3, 6)`. -/
theorem claim_C2_counterexample :
    (findPivots [1,1,1,10,1,1,1] 3 3 PivotKind.high = [3]) ∧
    segmentData (List.replicate 7 "d")
        (avwapColumn [1,1,1,10,1,1,1] (List.replicate 7 0)
          (findPivots [1,1,1,10,1,1,1] 3 3 PivotKind.high) 3 false)
        7 3 (min (3 + 3) (segEndNormal [] 7)) = [] ∧
    min (3 + 3) (segEndNormal [] 7) - 3 = 3 := by
  with_unfolding_all decide

/-- Concrete 35-bar high series with pivot-highs exactly at `[5, 15, 30]`
for strengths `(3, 3)` (the spec's worked example). -/
def exHighs : List ℚ :=
  [1,1,1,1,1,10,1,1,1,1,1,1,1,1,1,10,1,1,1,1,1,1,1,1,1,1,1,1,1,1,10,1,1,1,1]

/-- Date strings for the 35-bar example. -/
def exDates : List String := (List.range 35).map toString

/-- Witness for the amended C2 on the spec's example: pivots `[5,15,30]`
with `right = 3` and unit volumes; for the first pivot the dashed
sub-series covers exactly `[5, 8)`. -/
theorem claim_C2_witness :
    (List.replicate 35 (1 : ℚ)).length = exHighs.length ∧
    (∀ v ∈ List.replicate 35 (1 : ℚ), 0 < v) ∧
    ((findPivots exHighs 3 3 PivotKind.high).drop 0 = 5 :: [15, 30]) ∧
    segmentData exDates
        (avwapColumn exHighs (List.replicate 35 1) (findPivots exHighs 3 3 PivotKind.high)
          3 false)
        exHighs.length 5 (min (5 + 3) (segEndNormal [15, 30] exHighs.length))
      = (List.range' 5 (min (5 + 3) (segEndNormal [15, 30] exHighs.length) - 5)).map
          (fun idx => (exDates.getD idx "",
            ((avwapColumn exHighs (List.replicate 35 1)
                (findPivots exHighs 3 3 PivotKind.high) 3 false).getD idx none).getD 0)) :=
  ⟨by with_unfolding_all decide, by decide, by with_unfolding_all decide,
    (claim_C2 exDates exHighs (List.replicate 35 1) 3 3 0 5 [15, 30] PivotKind.high
      (by with_unfolding_all decide) (by decide) (by with_unfolding_all decide)).2.1⟩

/-! ### Claim C9 — `calculate()` is idempotent -/

/-- C9: for the SMA, AVWAP and PivotHigh overlays, running `calculate` a
second time changes nothing — the derived columns, the detected pivot index
lists and the subsequently emitted series configurations are identical —
because `calculate` recomputes everything from the base price/volume
columns, which it never modifies. -/
theorem claim_C9 (period left right : ℕ) (realistic : Bool)
    (s1 : SMAState) (s2 : AVWAPState) (s3 : PivotHighState) :
    smaCalculate period (smaCalculate period s1) = smaCalculate period s1 ∧
    smaConfigData (smaCalculate period (smaCalculate period s1))
      = smaConfigData (smaCalculate period s1) ∧
    avwapCalculate left right realistic (avwapCalculate left right realistic s2)
      = avwapCalculate left right realistic s2 ∧
    avwapStateConfigs right realistic
        (avwapCalculate left right realistic (avwapCalculate left right realistic s2))
      = avwapStateConfigs right realistic (avwapCalculate left right realistic s2) ∧
    pivotHighCalculate left right realistic
        (pivotHighCalculate left right realistic s3)
      = pivotHighCalculate left right realistic s3 ∧
    pivotHighStateConfigs right realistic
        (pivotHighCalculate left right realistic
          (pivotHighCalculate left right realistic s3))
      = pivotHighStateConfigs right realistic
          (pivotHighCalculate left right realistic s3) :=
  ⟨rfl, rfl, rfl, rfl, rfl, rfl⟩

end LW
